import Mathlib

/-!
Verification development for the dep-optimizer repository.

The TypeScript sources are shallowly embedded as Lean definitions:
JavaScript numbers that hold byte counts are modeled as `Int`, fractional
similarity scores as `ℚ`, JS `Map`/`Set` as insertion-ordered association
lists, and the stable `Array.prototype.sort` as `List.insertionSort` with
the relation induced by the comparator.  Strings are Lean `String`
(`toLowerCase` is modeled on ASCII letters, the only characters the
analyzed data contains).
-/

namespace DepOptimizer

/-- Model of the JS `String.prototype.toLowerCase` (ASCII model). -/
def jsToLower (s : String) : String :=
  String.mk (s.data.map Char.toLower)

/-- Truthiness of an optional JS string: `undefined` and `""` are falsy. -/
def strTruthy : Option String → Bool
  | none => false
  | some s => s ≠ ""

/-- Model of `Map.prototype.set` on an insertion-ordered association list:
an existing key keeps its position and gets the new value, a new key is
appended at the back. -/
def jsMapSet {α : Type} : List (String × α) → String → α → List (String × α)
  | [], k, v => [(k, v)]
  | (k', v') :: rest, k, v =>
    if k' = k then (k, v) :: rest else (k', v') :: jsMapSet rest k v

/-- Model of `Map.prototype.get` (returns the value of the unique entry
with the given key). -/
def jsMapGet {α : Type} : List (String × α) → String → Option α
  | [], _ => none
  | (k', v') :: rest, k => if k' = k then some v' else jsMapGet rest k

/-- Model of `Math.max(...xs)` on a list of integers.  Every call site in
the embedded code guards against the empty list, whose JS value would be
`-Infinity`; the `0` returned here for `[]` is unreachable. -/
def jsMaxInt : List Int → Int
  | [] => 0
  | x :: xs => xs.foldl max x

/-- Model of `xs.reduce((sum, x) => sum + x, 0)`. -/
def jsSumInt (xs : List Int) : Int :=
  xs.foldl (· + ·) 0

/-! ## Model of the node-semver library

`src/src/analyzer/duplicates.ts` delegates to the external `semver`
package for `valid`, `compare` and `satisfies`.  The definitions below
embed the documented behavior of node-semver: strict parsing
(`MAX_LENGTH` 256, numeric components bounded by `Number.MAX_SAFE_INTEGER`,
no leading zeros), precedence comparison including prerelease identifiers,
and caret ranges `^M.m.p` desugared to `>=M.m.p <upper-0` together with
the prerelease-exclusion rule of `Range.test`. -/

/-- A prerelease identifier: numeric identifiers compare numerically and
below every alphanumeric identifier, alphanumeric identifiers compare as
JS strings (code-unit lexicographic). -/
inductive PreId where
  | num (n : Nat)
  | str (s : String)
deriving DecidableEq, Repr

/-- A parsed semantic version.  Build metadata is checked during parsing
but discarded, exactly as node-semver ignores it for precedence. -/
structure Semver where
  major : Nat
  minor : Nat
  patch : Nat
  prerelease : List PreId
deriving DecidableEq, Repr

/-- Number.MAX_SAFE_INTEGER + 1. -/
def maxSafeIntegerSucc : Nat := 2 ^ 53

def isIdentChar (c : Char) : Bool := c.isAlpha || c.isDigit || c = '-'

def digitsToNat (ds : List Char) : Nat :=
  ds.foldl (fun n c => n * 10 + (c.toNat - '0'.toNat)) 0

/-- The regex alternative `0|[1-9]\d*`: a nonempty digit run without a
leading zero (except the single digit `0`). -/
def validNum (ds : List Char) : Bool :=
  !ds.isEmpty && (decide (ds.length = 1) || decide (ds.head? ≠ some '0'))

/-- Parse the `major.minor.patch` core of a version string, returning the
three numbers and the unconsumed remainder. -/
def parseMainVer (cs : List Char) : Option (Nat × Nat × Nat × List Char) :=
  let p1 := cs.span Char.isDigit
  if validNum p1.1 then
    match p1.2 with
    | '.' :: r1 =>
      let p2 := r1.span Char.isDigit
      if validNum p2.1 then
        match p2.2 with
        | '.' :: r2 =>
          let p3 := r2.span Char.isDigit
          if validNum p3.1 then
            some (digitsToNat p1.1, digitsToNat p2.1, digitsToNat p3.1, p3.2)
          else none
        | _ => none
      else none
    | _ => none
  else none

/-- Split a character list at every occurrence of the separator, keeping
empty segments (model of `String.prototype.split` with a single char). -/
def splitOnChar (sep : Char) : List Char → List (List Char)
  | [] => [[]]
  | c :: cs =>
    let r := splitOnChar sep cs
    if c = sep then [] :: r
    else
      match r with
      | s :: ss => (c :: s) :: ss
      | [] => [[c]]

/-- Parse one prerelease identifier: `0|[1-9]\d*|\d*[a-zA-Z-][a-zA-Z0-9-]*`.
A purely numeric identifier becomes `PreId.num` when its value is below
`Number.MAX_SAFE_INTEGER`; otherwise node-semver keeps the string form. -/
def parsePreId (cs : List Char) : Option PreId :=
  if cs.isEmpty then none
  else if !cs.all isIdentChar then none
  else if cs.all Char.isDigit then
    if validNum cs then
      let n := digitsToNat cs
      if n < maxSafeIntegerSucc - 1 then some (.num n) else some (.str (String.mk cs))
    else none
  else some (.str (String.mk cs))

def parsePrerelease (cs : List Char) : Option (List PreId) :=
  (splitOnChar '.' cs).mapM parsePreId

/-- Build identifiers are `[0-9A-Za-z-]+`; they are validated and dropped. -/
def validBuild (cs : List Char) : Bool :=
  (splitOnChar '.' cs).all (fun id => !id.isEmpty && id.all isIdentChar)

def trimWs (cs : List Char) : List Char :=
  ((cs.dropWhile Char.isWhitespace).reverse.dropWhile Char.isWhitespace).reverse

/-- Model of `semver.parse` / `semver.valid` (strict mode): `none` exactly
when node-semver returns `null`. -/
def parseSemver (s : String) : Option Semver :=
  if 256 < s.length then none
  else
    match parseMainVer (trimWs s.data) with
    | none => none
    | some (ma, mi, pa, rest) =>
      if maxSafeIntegerSucc ≤ ma ∨ maxSafeIntegerSucc ≤ mi ∨ maxSafeIntegerSucc ≤ pa then
        none
      else
        match rest with
        | [] => some ⟨ma, mi, pa, []⟩
        | '+' :: build => if validBuild build then some ⟨ma, mi, pa, []⟩ else none
        | '-' :: more =>
          let pre := more.takeWhile (· ≠ '+')
          let after := more.dropWhile (· ≠ '+')
          match parsePrerelease pre with
          | none => none
          | some ids =>
            match after with
            | [] => some ⟨ma, mi, pa, ids⟩
            | _ :: build => if validBuild build then some ⟨ma, mi, pa, ids⟩ else none
        | _ => none

/-- The numeric comparison of `compareIdentifiers`:
`a === b ? 0 : a < b ? -1 : 1`. -/
def cmpN (a b : Nat) : Ordering :=
  if a < b then .lt else if b < a then .gt else .eq

/-- Character comparison by UTF code unit, as in the JS `<` on strings. -/
def cmpChar (a b : Char) : Ordering := cmpN a.toNat b.toNat

/-- Lexicographic comparison of lists, the common loop shape of the JS
string comparison and the prerelease loop of `comparePre`: a list that
runs out first is smaller. -/
def cmpLexList {α : Type} (cmp : α → α → Ordering) : List α → List α → Ordering
  | [], [] => .eq
  | [], _ :: _ => .lt
  | _ :: _, [] => .gt
  | a :: as, b :: bs =>
    match cmp a b with
    | .eq => cmpLexList cmp as bs
    | o => o

/-- JS string comparison (`a < b ? -1 : a > b ? 1 : 0`). -/
def cmpStr (a b : String) : Ordering := cmpLexList cmpChar a.data b.data

/-- node-semver `compareIdentifiers`: numeric identifiers sort before
alphanumeric ones. -/
def cmpPreId : PreId → PreId → Ordering
  | .num a, .num b => cmpN a b
  | .num _, .str _ => .lt
  | .str _, .num _ => .gt
  | .str a, .str b => cmpStr a b

/-- node-semver `comparePre`: a version without prerelease is greater than
one with a prerelease; otherwise identifiers compare lexicographically. -/
def comparePre : List PreId → List PreId → Ordering
  | _ :: _, [] => .lt
  | [], _ :: _ => .gt
  | [], [] => .eq
  | a :: as, b :: bs => cmpLexList cmpPreId (a :: as) (b :: bs)

def compareMain (a b : Semver) : Ordering :=
  match cmpN a.major b.major with
  | .eq =>
    match cmpN a.minor b.minor with
    | .eq => cmpN a.patch b.patch
    | o => o
  | o => o

/-- Model of `semver.compare` on parsed versions. -/
def compareSemver (a b : Semver) : Ordering :=
  match compareMain a b with
  | .eq => comparePre a.prerelease b.prerelease
  | o => o

def sameMain (a b : Semver) : Bool :=
  decide (a.major = b.major) && decide (a.minor = b.minor) && decide (a.patch = b.patch)

/-- Upper bound comparator produced by desugaring `^M.m.p[-pre]`:
`<(M+1).0.0-0`, `<0.(m+1).0-0` or `<0.0.(p+1)-0`. -/
def caretUpper (v : Semver) : Semver :=
  if 0 < v.major then ⟨v.major + 1, 0, 0, [.num 0]⟩
  else if 0 < v.minor then ⟨0, v.minor + 1, 0, [.num 0]⟩
  else ⟨0, 0, v.patch + 1, [.num 0]⟩

/-- Model of `semver.satisfies(version, ^v)` on parsed versions: the
range desugars to `>=v <caretUpper v`, and a version carrying a
prerelease additionally needs a comparator with a prerelease on the same
`[major, minor, patch]` tuple (the `Range.test` prerelease-exclusion
rule). -/
def caretSatisfies (version v : Semver) : Bool :=
  (decide (compareSemver version v ≠ .lt) &&
      decide (compareSemver version (caretUpper v) = .lt)) &&
    (version.prerelease.isEmpty ||
      (!v.prerelease.isEmpty && sameMain v version) ||
      (!(caretUpper v).prerelease.isEmpty && sameMain (caretUpper v) version))

/-- Model of `semver.satisfies(version, "^" + v)` on version strings:
`satisfies` returns `false` when either side does not parse. -/
def satisfiesCaret (version v : String) : Bool :=
  match parseSemver version, parseSemver v with
  | some hv, some rv => caretSatisfies hv rv
  | _, _ => false

/-! ### Order-theoretic facts about the semver comparison

The JS comparator passed to `Array.prototype.sort` must be a total
preorder for the sort to be meaningful; the lemmas below establish
exactly that for `compareSemver` (antisymmetry of the result under
argument swap, transitivity of strict comparison, and substitutivity of
comparison-equality). -/

theorem cmpN_swap (a b : Nat) : cmpN b a = (cmpN a b).swap := by
  unfold cmpN
  split_ifs <;> first | rfl | omega

theorem cmpN_eq_lt {a b : Nat} : cmpN a b = .lt ↔ a < b := by
  unfold cmpN
  split_ifs <;> simp_all <;> omega

theorem cmpN_eq_eq {a b : Nat} : cmpN a b = .eq ↔ a = b := by
  unfold cmpN
  split_ifs <;> simp_all <;> omega

theorem cmpN_eq_gt {a b : Nat} : cmpN a b = .gt ↔ b < a := by
  unfold cmpN
  split_ifs <;> simp_all <;> omega

theorem cmpN_lt_trans {a b c : Nat} (h1 : cmpN a b = .lt) (h2 : cmpN b c = .lt) :
    cmpN a c = .lt := by
  rw [cmpN_eq_lt] at *
  omega

theorem cmpN_eq_subst {a b : Nat} (h : cmpN a b = .eq) (c : Nat) : cmpN a c = cmpN b c := by
  rw [cmpN_eq_eq] at h
  rw [h]

theorem ordering_swap_swap (o : Ordering) : o.swap.swap = o := by
  cases o <;> rfl

theorem cmpLexList_swap {α : Type} (cmp : α → α → Ordering)
    (hsw : ∀ a b, cmp b a = (cmp a b).swap) :
    ∀ as bs, cmpLexList cmp bs as = (cmpLexList cmp as bs).swap := by
  intro as
  induction as with
  | nil => intro bs; cases bs <;> rfl
  | cons a as ih =>
    intro bs
    cases bs with
    | nil => rfl
    | cons b bs =>
      show (match cmp b a with | .eq => cmpLexList cmp bs as | o => o) = _
      rw [hsw a b]
      cases h : cmp a b <;> simp [Ordering.swap, cmpLexList, h, ih bs]

theorem cmpLexList_refl {α : Type} (cmp : α → α → Ordering)
    (hr : ∀ a, cmp a a = .eq) :
    ∀ as, cmpLexList cmp as as = .eq := by
  intro as
  induction as with
  | nil => rfl
  | cons a as ih => simp [cmpLexList, hr a, ih]

theorem cmpLexList_eq_subst {α : Type} (cmp : α → α → Ordering)
    (hes : ∀ a b, cmp a b = .eq → ∀ c, cmp a c = cmp b c) :
    ∀ as bs, cmpLexList cmp as bs = .eq →
      ∀ cs, cmpLexList cmp as cs = cmpLexList cmp bs cs := by
  intro as
  induction as with
  | nil =>
    intro bs h cs
    cases bs with
    | nil => rfl
    | cons b bs => simp [cmpLexList] at h
  | cons a as ih =>
    intro bs h cs
    cases bs with
    | nil => simp [cmpLexList] at h
    | cons b bs =>
      have hab : cmp a b = .eq := by
        cases hab : cmp a b <;> simp [cmpLexList, hab] at h <;> rfl
      have htail : cmpLexList cmp as bs = .eq := by
        simpa [cmpLexList, hab] using h
      cases cs with
      | nil => rfl
      | cons c cs =>
        simp only [cmpLexList, hes a b hab c]
        cases hbc : cmp b c <;> simp [ih bs htail cs]

theorem cmpLexList_lt_trans {α : Type} (cmp : α → α → Ordering)
    (hsw : ∀ a b, cmp b a = (cmp a b).swap)
    (hes : ∀ a b, cmp a b = .eq → ∀ c, cmp a c = cmp b c)
    (hlt : ∀ a b c, cmp a b = .lt → cmp b c = .lt → cmp a c = .lt) :
    ∀ as bs cs, cmpLexList cmp as bs = .lt → cmpLexList cmp bs cs = .lt →
      cmpLexList cmp as cs = .lt := by
  intro as
  induction as with
  | nil =>
    intro bs cs h1 h2
    cases bs with
    | nil => simp [cmpLexList] at h1
    | cons b bs =>
      cases cs with
      | nil => simp [cmpLexList] at h2
      | cons c cs => rfl
  | cons a as ih =>
    intro bs cs h1 h2
    cases bs with
    | nil => simp [cmpLexList] at h1
    | cons b bs =>
      cases cs with
      | nil => simp [cmpLexList] at h2
      | cons c cs =>
        have hac : cmp a c = .lt ∨ (cmp a c = .eq ∧ cmpLexList cmp as cs = .lt) := by
          cases hab : cmp a b with
          | lt =>
            cases hbc : cmp b c with
            | lt => exact Or.inl (hlt a b c hab hbc)
            | eq =>
              left
              have hba : cmp b a = cmp c a := hes b c hbc a
              have h3 : (cmp a c).swap = .gt := by
                rw [← hsw a c, ← hba, hsw a b, hab]
                rfl
              cases hac : cmp a c
              · rfl
              · rw [hac] at h3; exact absurd h3 (by decide)
              · rw [hac] at h3; exact absurd h3 (by decide)
            | gt => simp [cmpLexList, hbc] at h2
          | eq =>
            have h1' : cmpLexList cmp as bs = .lt := by simpa [cmpLexList, hab] using h1
            cases hbc : cmp b c with
            | lt => exact Or.inl ((hes a b hab c).trans hbc)
            | eq =>
              right
              refine ⟨(hes a b hab c).trans hbc, ?_⟩
              have h2' : cmpLexList cmp bs cs = .lt := by simpa [cmpLexList, hbc] using h2
              exact ih bs cs h1' h2'
            | gt => simp [cmpLexList, hbc] at h2
          | gt => simp [cmpLexList, hab] at h1
        rcases hac with h | ⟨h, htail⟩
        · simp [cmpLexList, h]
        · simp [cmpLexList, h, htail]

theorem cmpChar_swap (a b : Char) : cmpChar b a = (cmpChar a b).swap :=
  cmpN_swap _ _

theorem cmpChar_refl (a : Char) : cmpChar a a = .eq := by
  simp [cmpChar, cmpN_eq_eq]

theorem cmpChar_eq_subst {a b : Char} (h : cmpChar a b = .eq) (c : Char) :
    cmpChar a c = cmpChar b c :=
  cmpN_eq_subst h _

theorem cmpChar_lt_trans {a b c : Char} (h1 : cmpChar a b = .lt) (h2 : cmpChar b c = .lt) :
    cmpChar a c = .lt :=
  cmpN_lt_trans h1 h2

theorem cmpStr_swap (a b : String) : cmpStr b a = (cmpStr a b).swap :=
  cmpLexList_swap cmpChar cmpChar_swap _ _

theorem cmpStr_refl (a : String) : cmpStr a a = .eq :=
  cmpLexList_refl cmpChar cmpChar_refl _

theorem cmpStr_eq_subst {a b : String} (h : cmpStr a b = .eq) (c : String) :
    cmpStr a c = cmpStr b c :=
  cmpLexList_eq_subst cmpChar (fun _ _ h => cmpChar_eq_subst h) _ _ h _

theorem cmpStr_lt_trans {a b c : String} (h1 : cmpStr a b = .lt) (h2 : cmpStr b c = .lt) :
    cmpStr a c = .lt :=
  cmpLexList_lt_trans cmpChar cmpChar_swap (fun _ _ h => cmpChar_eq_subst h)
    (fun _ _ _ => cmpChar_lt_trans) _ _ _ h1 h2

theorem cmpPreId_swap (a b : PreId) : cmpPreId b a = (cmpPreId a b).swap := by
  cases a <;> cases b
  · exact cmpN_swap _ _
  · rfl
  · rfl
  · exact cmpStr_swap _ _

theorem cmpPreId_refl (a : PreId) : cmpPreId a a = .eq := by
  cases a <;> simp [cmpPreId, cmpN_eq_eq, cmpStr_refl]

theorem cmpPreId_eq_subst {a b : PreId} (h : cmpPreId a b = .eq) (c : PreId) :
    cmpPreId a c = cmpPreId b c := by
  cases a <;> cases b <;> simp [cmpPreId] at h ⊢
  · rw [cmpN_eq_eq] at h
    cases c <;> simp [cmpPreId, h]
  · cases c <;> simp [cmpPreId, cmpStr_eq_subst h]

theorem cmpPreId_lt_trans {a b c : PreId} (h1 : cmpPreId a b = .lt) (h2 : cmpPreId b c = .lt) :
    cmpPreId a c = .lt := by
  cases a <;> cases b <;> cases c <;>
    simp_all [cmpPreId]
  · exact cmpN_lt_trans h1 h2
  · exact cmpStr_lt_trans h1 h2

theorem comparePre_swap (a b : List PreId) : comparePre b a = (comparePre a b).swap := by
  cases a with
  | nil =>
    cases b with
    | nil => rfl
    | cons y ys => rfl
  | cons x xs =>
    cases b with
    | nil => rfl
    | cons y ys => exact cmpLexList_swap cmpPreId cmpPreId_swap (x :: xs) (y :: ys)

theorem comparePre_refl (a : List PreId) : comparePre a a = .eq := by
  cases a with
  | nil => rfl
  | cons x xs =>
    show cmpLexList cmpPreId (x :: xs) (x :: xs) = .eq
    exact cmpLexList_refl cmpPreId cmpPreId_refl _

theorem comparePre_eq_subst {a b : List PreId} (h : comparePre a b = .eq)
    (c : List PreId) : comparePre a c = comparePre b c := by
  cases a with
  | nil =>
    cases b with
    | nil => rfl
    | cons y ys => simp [comparePre] at h
  | cons x xs =>
    cases b with
    | nil => simp [comparePre] at h
    | cons y ys =>
      have h' : cmpLexList cmpPreId (x :: xs) (y :: ys) = .eq := h
      have := cmpLexList_eq_subst cmpPreId (fun _ _ h => cmpPreId_eq_subst h) _ _ h'
      cases c with
      | nil => rfl
      | cons z zs => exact this (z :: zs)

theorem comparePre_lt_trans {a b c : List PreId} (h1 : comparePre a b = .lt)
    (h2 : comparePre b c = .lt) : comparePre a c = .lt := by
  cases a with
  | nil => cases b <;> simp [comparePre] at h1
  | cons x xs =>
    cases b with
    | nil => cases c <;> simp [comparePre] at h2
    | cons y ys =>
      cases c with
      | nil => rfl
      | cons z zs =>
        exact cmpLexList_lt_trans cmpPreId cmpPreId_swap
          (fun _ _ h => cmpPreId_eq_subst h) (fun _ _ _ => cmpPreId_lt_trans)
          _ _ _ h1 h2

theorem compareMain_eq_eq {a b : Semver} :
    compareMain a b = .eq ↔ a.major = b.major ∧ a.minor = b.minor ∧ a.patch = b.patch := by
  unfold compareMain
  cases h1 : cmpN a.major b.major with
  | lt =>
    rw [cmpN_eq_lt] at h1
    exact iff_of_false (by simp) (by omega)
  | gt =>
    rw [cmpN_eq_gt] at h1
    exact iff_of_false (by simp) (by omega)
  | eq =>
    rw [cmpN_eq_eq] at h1
    cases h2 : cmpN a.minor b.minor with
    | lt =>
      rw [cmpN_eq_lt] at h2
      exact iff_of_false (by simp) (by omega)
    | gt =>
      rw [cmpN_eq_gt] at h2
      exact iff_of_false (by simp) (by omega)
    | eq =>
      rw [cmpN_eq_eq] at h2
      rw [cmpN_eq_eq]
      constructor
      · intro h3
        exact ⟨h1, h2, h3⟩
      · intro ⟨_, _, h3⟩
        exact h3

theorem compareMain_swap (a b : Semver) : compareMain b a = (compareMain a b).swap := by
  unfold compareMain
  rw [cmpN_swap a.major, cmpN_swap a.minor, cmpN_swap a.patch]
  cases cmpN a.major b.major <;> cases cmpN a.minor b.minor <;>
    cases cmpN a.patch b.patch <;> rfl

theorem compareMain_eq_lt {a b : Semver} :
    compareMain a b = .lt ↔
      a.major < b.major ∨ (a.major = b.major ∧
        (a.minor < b.minor ∨ (a.minor = b.minor ∧ a.patch < b.patch))) := by
  unfold compareMain
  cases h1 : cmpN a.major b.major with
  | lt =>
    rw [cmpN_eq_lt] at h1
    exact iff_of_true rfl (Or.inl h1)
  | gt =>
    rw [cmpN_eq_gt] at h1
    exact iff_of_false (by simp) (by omega)
  | eq =>
    rw [cmpN_eq_eq] at h1
    cases h2 : cmpN a.minor b.minor with
    | lt =>
      rw [cmpN_eq_lt] at h2
      exact iff_of_true rfl (Or.inr ⟨h1, Or.inl h2⟩)
    | gt =>
      rw [cmpN_eq_gt] at h2
      exact iff_of_false (by simp) (by omega)
    | eq =>
      rw [cmpN_eq_eq] at h2
      cases h3 : cmpN a.patch b.patch with
      | lt =>
        rw [cmpN_eq_lt] at h3
        exact iff_of_true rfl (Or.inr ⟨h1, Or.inr ⟨h2, h3⟩⟩)
      | gt =>
        rw [cmpN_eq_gt] at h3
        exact iff_of_false (by simp) (by omega)
      | eq =>
        rw [cmpN_eq_eq] at h3
        exact iff_of_false (by simp) (by omega)

theorem compareMain_lt_trans {a b c : Semver} (h1 : compareMain a b = .lt)
    (h2 : compareMain b c = .lt) : compareMain a c = .lt := by
  rw [compareMain_eq_lt] at *
  omega

theorem compareSemver_swap (a b : Semver) : compareSemver b a = (compareSemver a b).swap := by
  unfold compareSemver
  rw [compareMain_swap, comparePre_swap]
  cases compareMain a b <;> rfl

theorem compareSemver_refl (a : Semver) : compareSemver a a = .eq := by
  unfold compareSemver
  have h : compareMain a a = .eq := compareMain_eq_eq.mpr ⟨rfl, rfl, rfl⟩
  rw [h, comparePre_refl]

theorem compareSemver_eq_main {a b : Semver} (h : compareSemver a b = .eq) :
    compareMain a b = .eq := by
  unfold compareSemver at h
  cases hm : compareMain a b <;> simp [hm] at h <;> rfl

theorem compareSemver_eq_subst {a b : Semver} (h : compareSemver a b = .eq) (c : Semver) :
    compareSemver a c = compareSemver b c := by
  have hm : compareMain a b = .eq := compareSemver_eq_main h
  have hpre : comparePre a.prerelease b.prerelease = .eq := by
    unfold compareSemver at h
    rwa [hm] at h
  obtain ⟨h1, h2, h3⟩ := compareMain_eq_eq.mp hm
  unfold compareSemver compareMain
  rw [h1, h2, h3, comparePre_eq_subst hpre]

theorem compareSemver_lt_trans {a b c : Semver} (h1 : compareSemver a b = .lt)
    (h2 : compareSemver b c = .lt) : compareSemver a c = .lt := by
  unfold compareSemver at *
  cases hab : compareMain a b with
  | lt =>
    cases hbc : compareMain b c with
    | lt => rw [compareMain_lt_trans hab hbc]
    | eq =>
      obtain ⟨e1, e2, e3⟩ := compareMain_eq_eq.mp hbc
      have : compareMain a c = compareMain a b := by
        unfold compareMain
        rw [e1, e2, e3]
      rw [this, hab]
    | gt => rw [hbc] at h2; exact absurd h2 (by simp)
  | eq =>
    obtain ⟨e1, e2, e3⟩ := compareMain_eq_eq.mp hab
    cases hbc : compareMain b c with
    | lt =>
      have : compareMain a c = compareMain b c := by
        unfold compareMain
        rw [e1, e2, e3]
      rw [this, hbc]
    | eq =>
      rw [hab] at h1
      rw [hbc] at h2
      have hac : compareMain a c = .eq := by
        rw [compareMain_eq_eq] at *
        omega
      rw [hac]
      exact comparePre_lt_trans h1 h2
    | gt => rw [hbc] at h2; exact absurd h2 (by simp)
  | gt => rw [hab] at h1; exact absurd h1 (by simp)

theorem compareSemver_eq_of_not_lt {a b : Semver} (h1 : compareSemver a b ≠ .lt)
    (h2 : compareSemver b a ≠ .lt) : compareSemver a b = .eq := by
  rw [compareSemver_swap a b] at h2
  cases h : compareSemver a b
  · exact absurd h h1
  · rfl
  · rw [h] at h2; exact absurd rfl h2

theorem semverGe_trans {A B C : Semver} (h1 : compareSemver A B ≠ .lt)
    (h2 : compareSemver B C ≠ .lt) : compareSemver A C ≠ .lt := by
  intro h3
  cases h : compareSemver A B with
  | lt => exact h1 h
  | eq =>
    apply h2
    rw [← compareSemver_eq_subst h C]
    exact h3
  | gt =>
    have hba : compareSemver B A = .lt := by
      rw [compareSemver_swap A B, h]
      rfl
    exact h2 (compareSemver_lt_trans hba h3)

/-! ## Embedding of `src/src/analyzer/duplicates.ts` (class DuplicateDetector) -/

/-- The `PackageInfo` interface of `src/analyzer/scanner.ts`: `size`,
`dependencies` and `level` are optional fields. -/
structure PackageInfo where
  name : String
  version : String
  path : String
  size : Option Int
  dependencies : Option (List (String × String))
  level : Option Int
deriving DecidableEq, Repr

structure VersionInfo where
  version : String
  paths : List String
  size : Int
  count : Nat
deriving DecidableEq, Repr

structure DuplicatePackage where
  name : String
  versions : List VersionInfo
  totalInstances : Nat
  wastedSpace : Int
  canConsolidate : Bool
  recommendedVersion : Option String
deriving DecidableEq, Repr

structure DuplicateAnalysisResult where
  duplicates : List DuplicatePackage
  totalDuplicates : Nat
  totalWastedSpace : Int
  consolidationOpportunities : Nat
deriving DecidableEq, Repr

/-- Parse result of a version string, defaulting to `0.0.0`; only applied
where the JS code has already checked `semver.valid`. -/
def parsedOr (s : String) : Semver :=
  (parseSemver s).getD ⟨0, 0, 0, []⟩

/-- The comparator `(a, b) => semver.compare(b, a)` passed to
`Array.prototype.sort` puts `a` no later than `b` exactly when
`semver.compare(a, b) >= 0`. -/
def stringSemverGe (a b : String) : Bool :=
  decide (compareSemver (parsedOr a) (parsedOr b) ≠ .lt)

/-- The sort relation of the descending semver sort. -/
def vGe (a b : String) : Prop := stringSemverGe a b = true

instance : DecidableRel vGe := fun a b => instDecidableEqBool _ _

instance : IsTotal String vGe where
  total a b := by
    unfold vGe stringSemverGe
    cases h : compareSemver (parsedOr a) (parsedOr b) with
    | lt =>
      right
      rw [decide_eq_true_eq]
      rw [compareSemver_swap (parsedOr a) (parsedOr b), h]
      decide
    | eq => left; rw [decide_eq_true_eq]; decide
    | gt => left; rw [decide_eq_true_eq]; decide

instance : IsTrans String vGe where
  trans a b c h1 h2 := by
    unfold vGe stringSemverGe at *
    rw [decide_eq_true_eq] at *
    exact semverGe_trans h1 h2

/-- Embedding of `DuplicateDetector.canConsolidateVersions`.  The JS code
keeps version strings and re-parses them inside `semver.compare` and
`semver.satisfies`; the sort of the valid strings is the stable
descending sort by semver precedence. -/
def canConsolidateVersions (versions : List String) : Bool :=
  if versions.length ≤ 1 then false
  else
    let sortedVersions :=
      List.insertionSort vGe (versions.filter (fun v => (parseSemver v).isSome))
    match sortedVersions with
    | [] => false
    | highest :: _ => sortedVersions.all (fun v => satisfiesCaret highest v)

/-- Embedding of `DuplicateDetector.getRecommendedVersion`
(`validVersions[0] || versions[0].version`; the empty-list fallback `""`
is unreachable in context). -/
def getRecommendedVersion (versions : List VersionInfo) : String :=
  let validVersions :=
    List.insertionSort vGe ((versions.map (·.version)).filter (fun v => (parseSemver v).isSome))
  match validVersions with
  | v :: _ => v
  | [] => ((versions.head?).map (·.version)).getD ""

/-- Embedding of `DuplicateDetector.calculateWastedSpace`. -/
def calculateWastedSpace (versions : List VersionInfo) : Int :=
  if versions.length ≤ 1 then 0
  else
    let maxSize := jsMaxInt (versions.map (·.size))
    let totalSize := versions.foldl (fun sum v => sum + v.size) 0
    totalSize - maxSize

/-- One step of the version-map loop in `analyzeDuplicatePackage`: a new
version string gets a fresh entry whose `size` is `pkg.size || 0` of its
first record; every record appends its path and bumps the count. -/
def updateVersionMap : List VersionInfo → PackageInfo → List VersionInfo
  | [], p => [⟨p.version, [p.path], (p.size.getD 0), 1⟩]
  | vi :: rest, p =>
    if vi.version = p.version then
      { vi with paths := vi.paths ++ [p.path], count := vi.count + 1 } :: rest
    else
      vi :: updateVersionMap rest p

/-- The insertion-ordered values of the `versionMap` of
`analyzeDuplicatePackage`. -/
def versionGroups (packages : List PackageInfo) : List VersionInfo :=
  packages.foldl updateVersionMap []

/-- Embedding of `DuplicateDetector.analyzeDuplicatePackage`. -/
def analyzeDuplicatePackage (name : String) (packages : List PackageInfo) :
    DuplicatePackage :=
  let versions := versionGroups packages
  let wastedSpace := calculateWastedSpace versions
  let canConsolidate := canConsolidateVersions (versions.map (·.version))
  { name := name
    versions := versions
    totalInstances := packages.length
    wastedSpace := wastedSpace
    canConsolidate := canConsolidate
    recommendedVersion :=
      if canConsolidate then some (getRecommendedVersion versions) else none }

/-- One step of `groupPackagesByName` (a JS `Map` from name to the list
of records with that name, in insertion order). -/
def addToGroup (m : List (String × List PackageInfo)) (p : PackageInfo) :
    List (String × List PackageInfo) :=
  match m with
  | [] => [(p.name, [p])]
  | (k, xs) :: rest =>
    if k = p.name then (k, xs ++ [p]) :: rest else (k, xs) :: addToGroup rest p

def groupPackagesByName (packages : List PackageInfo) :
    List (String × List PackageInfo) :=
  packages.foldl addToGroup []

/-- Sort relation of `duplicates.sort((a, b) => b.wastedSpace - a.wastedSpace)`. -/
def dupGe (a b : DuplicatePackage) : Prop := b.wastedSpace ≤ a.wastedSpace

instance : DecidableRel dupGe := fun a b => Int.decLe _ _

/-- The loop body of `DuplicateDetector.analyze`: names with at least two
records contribute a `DuplicatePackage` and update the running totals. -/
def analyzeStep (acc : List DuplicatePackage × Int × Nat)
    (g : String × List PackageInfo) : List DuplicatePackage × Int × Nat :=
  if 1 < g.2.length then
    let d := analyzeDuplicatePackage g.1 g.2
    (acc.1 ++ [d], acc.2.1 + d.wastedSpace, acc.2.2 + (if d.canConsolidate then 1 else 0))
  else acc

/-- Embedding of `DuplicateDetector.analyze`. -/
def analyze (packages : List PackageInfo) : DuplicateAnalysisResult :=
  let acc := (groupPackagesByName packages).foldl analyzeStep ([], 0, 0)
  let sorted := List.insertionSort dupGe acc.1
  { duplicates := sorted
    totalDuplicates := sorted.length
    totalWastedSpace := acc.2.1
    consolidationOpportunities := acc.2.2 }

/-! ## Facts used to settle the consolidation-feasibility claim -/

theorem comparePre_eq_isEmpty {a b : List PreId} (h : comparePre a b = .eq) :
    a.isEmpty = b.isEmpty := by
  cases a with
  | nil =>
    cases b with
    | nil => rfl
    | cons y ys => exact absurd h (by simp [comparePre])
  | cons x xs =>
    cases b with
    | nil => exact absurd h (by simp [comparePre])
    | cons y ys => rfl

/-- Versions with equal semver precedence behave identically as the
version tested against a caret range. -/
theorem caretSatisfies_congr {A B : Semver} (h : compareSemver A B = .eq) (v : Semver) :
    caretSatisfies A v = caretSatisfies B v := by
  have hm := compareSemver_eq_main h
  have hpre : comparePre A.prerelease B.prerelease = .eq := by
    unfold compareSemver at h
    rwa [hm] at h
  obtain ⟨e1, e2, e3⟩ := compareMain_eq_eq.mp hm
  have hempty := comparePre_eq_isEmpty hpre
  unfold caretSatisfies sameMain
  rw [compareSemver_eq_subst h v, compareSemver_eq_subst h (caretUpper v), e1, e2, e3, hempty]

theorem vGe_refl (a : String) : vGe a a := by
  unfold vGe stringSemverGe
  rw [decide_eq_true_eq, compareSemver_refl]
  decide

theorem satisfiesCaret_congr {a b : String}
    (ha : (parseSemver a).isSome = true) (hb : (parseSemver b).isSome = true)
    (heq : compareSemver (parsedOr a) (parsedOr b) = .eq) (w : String) :
    satisfiesCaret a w = satisfiesCaret b w := by
  obtain ⟨A, hA⟩ := Option.isSome_iff_exists.mp ha
  obtain ⟨B, hB⟩ := Option.isSome_iff_exists.mp hb
  have hA' : parsedOr a = A := by simp [parsedOr, hA]
  have hB' : parsedOr b = B := by simp [parsedOr, hB]
  rw [hA', hB'] at heq
  unfold satisfiesCaret
  rw [hA, hB]
  cases hw : parseSemver w with
  | none => rfl
  | some W => exact caretSatisfies_congr heq W

/-- C1 (counterexample): a duplicate group with two version strings of
which only one parses as a valid semver is reported as consolidable, so
feasibility is not false whenever fewer than 2 valid versions exist. -/
theorem c1_canConsolidate_counterexample :
    canConsolidateVersions ["1.0.0", "not-a-version"] = true ∧
      (["1.0.0", "not-a-version"].filter (fun v => (parseSemver v).isSome)).length = 1 := by
  constructor
  · decide
  · decide

/-- C1 (amended): feasibility is false when the group has fewer than two
version strings or no syntactically valid version; otherwise it holds iff
every valid version, treated as a caret range, accepts the numerically
highest valid version (where "highest" means a valid version of maximal
semver precedence). -/
theorem c1_canConsolidate_spec (versions : List String) :
    canConsolidateVersions versions = true ↔
      2 ≤ versions.length ∧
      ∃ hi, hi ∈ versions.filter (fun v => (parseSemver v).isSome) ∧
        (∀ w ∈ versions.filter (fun v => (parseSemver v).isSome), vGe hi w) ∧
        (∀ w ∈ versions.filter (fun v => (parseSemver v).isSome), satisfiesCaret hi w = true) := by
  simp only [canConsolidateVersions]
  by_cases hlen : versions.length ≤ 1
  · rw [if_pos hlen]
    constructor
    · intro h
      exact absurd h (by simp)
    · rintro ⟨h2, -⟩
      omega
  · rw [if_neg hlen]
    cases hS : List.insertionSort vGe (versions.filter (fun v => (parseSemver v).isSome)) with
    | nil =>
      have hperm := List.perm_insertionSort vGe (versions.filter (fun v => (parseSemver v).isSome))
      rw [hS] at hperm
      have hFnil : versions.filter (fun v => (parseSemver v).isSome) = [] :=
        List.Perm.eq_nil hperm.symm
      constructor
      · intro h
        exact absurd h (by simp)
      · rintro ⟨-, hi, hmem, -, -⟩
        rw [hFnil] at hmem
        exact absurd hmem (List.not_mem_nil hi)
    | cons h t =>
      have hperm := List.perm_insertionSort vGe (versions.filter (fun v => (parseSemver v).isSome))
      have hsorted := List.sorted_insertionSort vGe (versions.filter (fun v => (parseSemver v).isSome))
      rw [hS] at hperm hsorted
      have hmem_h : h ∈ versions.filter (fun v => (parseSemver v).isSome) :=
        hperm.mem_iff.mp (List.mem_cons_self h t)
      have hmax : ∀ w ∈ versions.filter (fun v => (parseSemver v).isSome), vGe h w := by
        intro w hw
        rcases List.mem_cons.mp (hperm.mem_iff.mpr hw) with hw' | hw'
        · rw [hw']
          exact vGe_refl h
        · exact List.rel_of_sorted_cons hsorted w hw'
      constructor
      · intro hall
        rw [List.all_eq_true] at hall
        refine ⟨by omega, h, hmem_h, hmax, ?_⟩
        intro w hw
        exact hall w (hperm.mem_iff.mpr hw)
      · rintro ⟨-, hi, hmem_hi, hige, hisat⟩
        rw [List.all_eq_true]
        intro w hw
        have hw' : w ∈ versions.filter (fun v => (parseSemver v).isSome) := hperm.mem_iff.mp hw
        have h1 : vGe hi h := hige h hmem_h
        have h2 : vGe h hi := hmax hi hmem_hi
        unfold vGe stringSemverGe at h1 h2
        rw [decide_eq_true_eq] at h1 h2
        have heq : compareSemver (parsedOr hi) (parsedOr h) = .eq :=
          compareSemver_eq_of_not_lt h1 h2
        have hvalid_hi : (parseSemver hi).isSome = true := (List.mem_filter.mp hmem_hi).2
        have hvalid_h : (parseSemver h).isSome = true := (List.mem_filter.mp hmem_h).2
        rw [← satisfiesCaret_congr hvalid_hi hvalid_h heq w]
        exact hisat w hw'

/-! ## Facts about the version-duplicate analysis pipeline -/

/-- The duplicate entries contributed by the name-grouped map, in loop
order (names with at least two records). -/
def dupsOf (gs : List (String × List PackageInfo)) : List DuplicatePackage :=
  (gs.filter (fun g => 1 < g.2.length)).map (fun g => analyzeDuplicatePackage g.1 g.2)

theorem foldl_analyzeStep_eq (gs : List (String × List PackageInfo)) :
    ∀ L s c, gs.foldl analyzeStep (L, s, c) =
      (L ++ dupsOf gs,
       s + ((dupsOf gs).map (·.wastedSpace)).sum,
       c + ((dupsOf gs).filter (·.canConsolidate)).length) := by
  induction gs with
  | nil =>
    intro L s c
    simp [dupsOf]
  | cons g gs ih =>
    intro L s c
    rw [List.foldl_cons]
    simp only [analyzeStep]
    by_cases hg : 1 < g.2.length
    · rw [if_pos hg, ih]
      have hd : dupsOf (g :: gs) = analyzeDuplicatePackage g.1 g.2 :: dupsOf gs := by
        simp [dupsOf, List.filter_cons, hg]
      rw [hd]
      simp only [Prod.mk.injEq, List.map_cons, List.sum_cons, List.filter_cons]
      refine ⟨by simp, by omega, ?_⟩
      by_cases hc : (analyzeDuplicatePackage g.1 g.2).canConsolidate <;>
        simp [hc] <;> omega
    · rw [if_neg hg, ih]
      have hd : dupsOf (g :: gs) = dupsOf gs := by
        simp [dupsOf, List.filter_cons, hg]
      rw [hd]

theorem analyze_duplicates_eq (packages : List PackageInfo) :
    (analyze packages).duplicates =
      List.insertionSort dupGe (dupsOf (groupPackagesByName packages)) := by
  simp only [analyze, foldl_analyzeStep_eq, List.nil_append]

theorem analyze_duplicates_perm (packages : List PackageInfo) :
    (analyze packages).duplicates.Perm (dupsOf (groupPackagesByName packages)) := by
  rw [analyze_duplicates_eq]
  exact List.perm_insertionSort dupGe _

/-- Characterization of membership in the duplicates list. -/
theorem mem_analyze_duplicates {packages : List PackageInfo} {d : DuplicatePackage} :
    d ∈ (analyze packages).duplicates ↔
      ∃ g ∈ groupPackagesByName packages, 1 < g.2.length ∧
        d = analyzeDuplicatePackage g.1 g.2 := by
  rw [(analyze_duplicates_perm packages).mem_iff]
  unfold dupsOf
  simp only [List.mem_map, List.mem_filter]
  constructor
  · rintro ⟨g, ⟨hg, hlen⟩, rfl⟩
    exact ⟨g, hg, by simpa using hlen, rfl⟩
  · rintro ⟨g, hg, hlen, rfl⟩
    exact ⟨g, ⟨hg, by simpa using hlen⟩, rfl⟩

theorem updateVersionMap_ne_nil (m : List VersionInfo) (p : PackageInfo) :
    updateVersionMap m p ≠ [] := by
  cases m with
  | nil => simp [updateVersionMap]
  | cons vi rest =>
    simp only [updateVersionMap]
    split_ifs <;> simp

theorem foldl_updateVersionMap_ne_nil :
    ∀ (ps : List PackageInfo) (m : List VersionInfo), m ≠ [] ∨ ps ≠ [] →
      ps.foldl updateVersionMap m ≠ [] := by
  intro ps
  induction ps with
  | nil =>
    intro m h
    rcases h with h | h
    · simpa using h
    · exact absurd rfl h
  | cons p ps ih =>
    intro m _
    rw [List.foldl_cons]
    exact ih (updateVersionMap m p) (Or.inl (updateVersionMap_ne_nil m p))

/-- Sizes of version-group entries are sizes `pkg.size || 0` of records. -/
theorem updateVersionMap_size_pred (Q : Int → Prop) :
    ∀ (m : List VersionInfo) (p : PackageInfo), (∀ vi ∈ m, Q vi.size) →
      Q (p.size.getD 0) → ∀ vi ∈ updateVersionMap m p, Q vi.size := by
  intro m
  induction m with
  | nil =>
    intro p _ hp vi hvi
    simp only [updateVersionMap, List.mem_singleton] at hvi
    rw [hvi]
    exact hp
  | cons w rest ih =>
    intro p hm hp vi hvi
    simp only [updateVersionMap] at hvi
    split_ifs at hvi with hv
    · rcases List.mem_cons.mp hvi with rfl | hvi'
      · exact hm w (List.mem_cons_self w rest)
      · exact hm vi (List.mem_cons_of_mem w hvi')
    · rcases List.mem_cons.mp hvi with rfl | hvi'
      · exact hm vi (List.mem_cons_self vi rest)
      · exact ih p (fun u hu => hm u (List.mem_cons_of_mem w hu)) hp vi hvi'

theorem versionGroups_size_pred (Q : Int → Prop) :
    ∀ (ps : List PackageInfo) (m : List VersionInfo), (∀ vi ∈ m, Q vi.size) →
      (∀ p ∈ ps, Q (p.size.getD 0)) → ∀ vi ∈ ps.foldl updateVersionMap m, Q vi.size := by
  intro ps
  induction ps with
  | nil =>
    intro m hm _ vi hvi
    exact hm vi hvi
  | cons p ps ih =>
    intro m hm hp vi hvi
    rw [List.foldl_cons] at hvi
    refine ih (updateVersionMap m p) ?_ (fun q hq => hp q (List.mem_cons_of_mem p hq)) vi hvi
    exact updateVersionMap_size_pred Q m p hm (hp p (List.mem_cons_self p ps))

/-- Records inside the name-grouped map all come from the inventory. -/
theorem addToGroup_pred (P : PackageInfo → Prop) :
    ∀ (m : List (String × List PackageInfo)) (p : PackageInfo),
      (∀ g ∈ m, ∀ q ∈ g.2, P q) → P p →
      ∀ g ∈ addToGroup m p, ∀ q ∈ g.2, P q := by
  intro m
  induction m with
  | nil =>
    intro p _ hp g hg q hq
    simp only [addToGroup, List.mem_singleton] at hg
    rw [hg] at hq
    simp only [List.mem_singleton] at hq
    rw [hq]
    exact hp
  | cons e rest ih =>
    intro p hm hp g hg q hq
    obtain ⟨k, xs⟩ := e
    simp only [addToGroup] at hg
    split_ifs at hg with hk
    · rcases List.mem_cons.mp hg with hg1 | hg'
      · rw [hg1] at hq
        rcases List.mem_append.mp hq with hq' | hq'
        · exact hm (k, xs) (List.mem_cons_self _ rest) q hq'
        · rw [List.mem_singleton.mp hq']
          exact hp
      · exact hm g (List.mem_cons_of_mem _ hg') q hq
    · rcases List.mem_cons.mp hg with hg1 | hg'
      · rw [hg1] at hq
        exact hm (k, xs) (List.mem_cons_self _ rest) q hq
      · exact ih p (fun u hu => hm u (List.mem_cons_of_mem _ hu)) hp g hg' q hq

theorem groupPackagesByName_pred (P : PackageInfo → Prop) :
    ∀ (ps : List PackageInfo) (m : List (String × List PackageInfo)),
      (∀ g ∈ m, ∀ q ∈ g.2, P q) → (∀ p ∈ ps, P p) →
      ∀ g ∈ ps.foldl addToGroup m, ∀ q ∈ g.2, P q := by
  intro ps
  induction ps with
  | nil =>
    intro m hm _ g hg q hq
    exact hm g hg q hq
  | cons p ps ih =>
    intro m hm hp g hg q hq
    rw [List.foldl_cons] at hg
    refine ih (addToGroup m p) ?_ (fun u hu => hp u (List.mem_cons_of_mem p hu)) g hg q hq
    exact addToGroup_pred P m p hm (hp p (List.mem_cons_self p ps))

theorem foldl_add_size (l : List VersionInfo) :
    ∀ a : Int, l.foldl (fun sum v => sum + v.size) a = a + (l.map (·.size)).sum := by
  induction l with
  | nil => intro a; simp
  | cons v l ih =>
    intro a
    rw [List.foldl_cons, ih]
    simp only [List.map_cons, List.sum_cons]
    omega

theorem jsMaxInt_mem {l : List Int} (h : l ≠ []) : jsMaxInt l ∈ l := by
  cases l with
  | nil => exact absurd rfl h
  | cons x xs =>
    show xs.foldl max x ∈ x :: xs
    clear h
    induction xs generalizing x with
    | nil => simp
    | cons y ys ih =>
      rw [List.foldl_cons]
      rcases max_choice x y with hm | hm <;>
        rcases List.mem_cons.mp (ih (max x y)) with hh | hh <;>
        simp [hh, hm] at * <;> simp [*]

theorem sum_nonneg_int {l : List Int} (h : ∀ x ∈ l, 0 ≤ x) : 0 ≤ l.sum := by
  induction l with
  | nil => simp
  | cons x xs ih =>
    rw [List.sum_cons]
    have h1 := h x (List.mem_cons_self x xs)
    have h2 := ih (fun u hu => h u (List.mem_cons_of_mem x hu))
    omega

theorem mem_le_sum_int {l : List Int} (hpos : ∀ x ∈ l, 0 ≤ x) {y : Int} (hy : y ∈ l) :
    y ≤ l.sum := by
  induction l with
  | nil => exact absurd hy (List.not_mem_nil y)
  | cons x xs ih =>
    rw [List.sum_cons]
    rcases List.mem_cons.mp hy with hy1 | hy'
    · have := sum_nonneg_int (fun u hu => hpos u (List.mem_cons_of_mem x hu))
      omega
    · have h1 := ih (fun u hu => hpos u (List.mem_cons_of_mem x hu)) hy'
      have h2 := hpos x (List.mem_cons_self x xs)
      omega

theorem calculateWastedSpace_eq {versions : List VersionInfo} (hne : versions ≠ []) :
    calculateWastedSpace versions =
      (versions.map (·.size)).sum - jsMaxInt (versions.map (·.size)) := by
  simp only [calculateWastedSpace]
  by_cases h : versions.length ≤ 1
  · rw [if_pos h]
    cases versions with
    | nil => exact absurd rfl hne
    | cons v rest =>
      cases rest with
      | nil => simp [jsMaxInt]
      | cons w rest' => simp at h
  · rw [if_neg h, foldl_add_size]
    omega

theorem analyzeDuplicatePackage_versions (name : String) (ps : List PackageInfo) :
    (analyzeDuplicatePackage name ps).versions = versionGroups ps := rfl

theorem analyzeDuplicatePackage_wastedSpace (name : String) (ps : List PackageInfo) :
    (analyzeDuplicatePackage name ps).wastedSpace =
      calculateWastedSpace (versionGroups ps) := rfl

/-- C4: for every inventory, the wasted space of a reported duplicate
group equals the sum of its version-group sizes minus their maximum; with
non-negative record sizes it is non-negative, and with a single distinct
version it is zero. -/
theorem c4_wastedSpace_spec (packages : List PackageInfo)
    (hsize : ∀ p ∈ packages, 0 ≤ p.size.getD 0) :
    ∀ d ∈ (analyze packages).duplicates,
      d.wastedSpace = (d.versions.map (·.size)).sum - jsMaxInt (d.versions.map (·.size)) ∧
      0 ≤ d.wastedSpace ∧
      (d.versions.length = 1 → d.wastedSpace = 0) := by
  intro d hd
  obtain ⟨g, hg, hlen, rfl⟩ := mem_analyze_duplicates.mp hd
  have hg2ne : g.2 ≠ [] := by
    intro hnil
    rw [hnil] at hlen
    simp at hlen
  have hverne : versionGroups g.2 ≠ [] :=
    foldl_updateVersionMap_ne_nil g.2 [] (Or.inr hg2ne)
  have hmem_pkgs : ∀ q ∈ g.2, q ∈ packages :=
    groupPackagesByName_pred (· ∈ packages) packages [] (by simp) (fun p hp => hp) g hg
  have hvsize : ∀ vi ∈ versionGroups g.2, 0 ≤ vi.size :=
    versionGroups_size_pred (0 ≤ ·) g.2 [] (by simp)
      (fun p hp => hsize p (hmem_pkgs p hp))
  have hszne : (versionGroups g.2).map (·.size) ≠ [] := by
    simpa using hverne
  have hpos : ∀ x ∈ (versionGroups g.2).map (·.size), 0 ≤ x := by
    intro x hx
    obtain ⟨vi, hvi, rfl⟩ := List.mem_map.mp hx
    exact hvsize vi hvi
  refine ⟨?_, ?_, ?_⟩
  · rw [analyzeDuplicatePackage_wastedSpace, analyzeDuplicatePackage_versions,
      calculateWastedSpace_eq hverne]
  · rw [analyzeDuplicatePackage_wastedSpace, calculateWastedSpace_eq hverne]
    have hmax := jsMaxInt_mem hszne
    have := mem_le_sum_int hpos hmax
    omega
  · rw [analyzeDuplicatePackage_versions, analyzeDuplicatePackage_wastedSpace]
    intro h1
    simp only [calculateWastedSpace]
    rw [if_pos (by omega)]

/-- The lodash scenario inventory from the specification. -/
def demoPackages : List PackageInfo :=
  [⟨"lodash", "4.17.20", "/node_modules/lodash", some 5000, none, some 0⟩,
   ⟨"lodash", "4.17.21", "/node_modules/pkg-a/node_modules/lodash", some 5100, none, some 1⟩,
   ⟨"react", "17.0.0", "/node_modules/react", some 10000, none, some 0⟩]

/-- The duplicate entry that `analyze` reports for `demoPackages`. -/
def lodashDup : DuplicatePackage :=
  ⟨"lodash",
   [⟨"4.17.20", ["/node_modules/lodash"], 5000, 1⟩,
    ⟨"4.17.21", ["/node_modules/pkg-a/node_modules/lodash"], 5100, 1⟩],
   2, 5000, true, some "4.17.21"⟩

/-- C4 (witness): the wasted-space properties evaluated on the lodash
scenario. -/
theorem c4_wastedSpace_spec_witness :
    lodashDup.wastedSpace =
        (lodashDup.versions.map (·.size)).sum - jsMaxInt (lodashDup.versions.map (·.size)) ∧
      0 ≤ lodashDup.wastedSpace ∧
      (lodashDup.versions.length = 1 → lodashDup.wastedSpace = 0) :=
  c4_wastedSpace_spec demoPackages (by decide) lodashDup (by decide)

theorem analyze_totalWastedSpace_eq (packages : List PackageInfo) :
    (analyze packages).totalWastedSpace =
      ((dupsOf (groupPackagesByName packages)).map (·.wastedSpace)).sum := by
  simp only [analyze]
  rw [foldl_analyzeStep_eq]
  simp

theorem analyze_consolidationOpportunities_eq (packages : List PackageInfo) :
    (analyze packages).consolidationOpportunities =
      ((dupsOf (groupPackagesByName packages)).filter (·.canConsolidate)).length := by
  simp only [analyze]
  rw [foldl_analyzeStep_eq]
  simp

/-- C10: the aggregate fields of the version-duplicate analysis agree
with its duplicates list: the count is its length, the total wasted space
is the sum of the per-entry wasted space and the consolidation count is
the number of consolidable entries. -/
theorem c10_analyze_aggregates (packages : List PackageInfo) :
    (analyze packages).totalDuplicates = (analyze packages).duplicates.length ∧
    (analyze packages).totalWastedSpace =
      ((analyze packages).duplicates.map (·.wastedSpace)).sum ∧
    (analyze packages).consolidationOpportunities =
      ((analyze packages).duplicates.filter (·.canConsolidate)).length := by
  refine ⟨rfl, ?_, ?_⟩
  · rw [analyze_totalWastedSpace_eq]
    exact (((analyze_duplicates_perm packages).map (·.wastedSpace)).sum_eq).symm
  · rw [analyze_consolidationOpportunities_eq]
    exact (((analyze_duplicates_perm packages).filter (·.canConsolidate)).length_eq).symm

/-- C10 (witness): the aggregate consistency evaluated on the lodash
scenario inventory. -/
theorem c10_analyze_aggregates_witness :
    (analyze demoPackages).totalDuplicates = (analyze demoPackages).duplicates.length ∧
    (analyze demoPackages).totalWastedSpace =
      ((analyze demoPackages).duplicates.map (·.wastedSpace)).sum ∧
    (analyze demoPackages).consolidationOpportunities =
      ((analyze demoPackages).duplicates.filter (·.canConsolidate)).length :=
  c10_analyze_aggregates demoPackages

/-! ## Embedding of `src/features/functional-duplicates/detector.ts`

The detector is modeled with the catalog of functional groups as a
parameter: with dynamic grouping disabled it is the constant
`FUNCTIONAL_DUPLICATE_GROUPS`, with it enabled it is the combined
static-plus-dynamic list; in both paths the per-package groups are
obtained by the same lowercase-membership filter.  The found-package
entries carry the fields every claim refers to (name, version, size,
path, level); the presentation-only fields `requiredBy` (whose order
depends on the locale-sensitive `localeCompare`), `description` and
`keywords` are not modeled. -/

structure FunctionalDuplicateGroup where
  category : String
  packages : List String
  description : Option String
  recommended : Option String
deriving DecidableEq, Repr

structure FoundPackage where
  name : String
  version : String
  size : Int
  path : String
  level : Option Int
deriving DecidableEq, Repr

structure FunctionalDuplicate where
  category : String
  description : Option String
  foundPackages : List FoundPackage
  totalSize : Int
  recommended : Option String
deriving DecidableEq, Repr

structure FunctionalDuplicateResult where
  duplicates : List FunctionalDuplicate
  totalGroups : Nat
  totalPotentialSavings : Int
deriving DecidableEq, Repr

/-- The lookup `packageMap`: `packageMap.set(pkg.name.toLowerCase(), pkg)`
for every record in inventory order. -/
def buildPackageMap (packages : List PackageInfo) : List (String × PackageInfo) :=
  packages.foldl (fun m p => jsMapSet m (jsToLower p.name) p) []

/-- The found-entry pushed for an installed package
(`size: installedPackage.size || 0`). -/
def mkFound (p : PackageInfo) : FoundPackage :=
  ⟨p.name, p.version, p.size.getD 0, p.path, p.level⟩

/-- The `foundPackages` array of one candidate group: each member name is
looked up by lowercase name and silently skipped when absent. -/
def foundOf (pm : List (String × PackageInfo)) (g : FunctionalDuplicateGroup) :
    List FoundPackage :=
  g.packages.filterMap (fun gpn => (jsMapGet pm (jsToLower gpn)).map mkFound)

/-- The `FunctionalDuplicate` pushed for an emitted group. -/
def mkDup (pm : List (String × PackageInfo)) (g : FunctionalDuplicateGroup) :
    FunctionalDuplicate :=
  ⟨g.category, g.description, foundOf pm g,
   (foundOf pm g).foldl (fun sum q => sum + q.size) 0, g.recommended⟩

/-- The body of the inner group loop of `analyze`: skip already-processed
categories, emit the group when more than one member is installed. -/
def processGroup (pm : List (String × PackageInfo))
    (st : List FunctionalDuplicate × List String) (g : FunctionalDuplicateGroup) :
    List FunctionalDuplicate × List String :=
  if st.2.contains g.category then st
  else if 1 < (foundOf pm g).length then
    (st.1 ++ [mkDup pm g], st.2 ++ [g.category])
  else st

/-- The groups containing a package, by case-insensitive member match
(`group.packages.some(p => p.toLowerCase() === pkg.name.toLowerCase())`). -/
def groupsForName (groups : List FunctionalDuplicateGroup) (name : String) :
    List FunctionalDuplicateGroup :=
  groups.filter (fun g => g.packages.any (fun p => jsToLower p = jsToLower name))

/-- The per-group term of the `totalPotentialSavings` reduce. -/
def groupSavings (d : FunctionalDuplicate) : Int :=
  if d.foundPackages.length ≤ 1 then 0
  else jsSumInt (d.foundPackages.map (·.size)) - jsMaxInt (d.foundPackages.map (·.size))

/-- Sort relation of `detectedDuplicates.sort((a, b) => b.totalSize - a.totalSize)`. -/
def fdGe (a b : FunctionalDuplicate) : Prop := b.totalSize ≤ a.totalSize

instance : DecidableRel fdGe := fun a b => Int.decLe _ _

/-- Embedding of `FunctionalDuplicateDetector.analyze` over a given
catalog of groups. -/
def analyzeFD (groups : List FunctionalDuplicateGroup) (packages : List PackageInfo) :
    FunctionalDuplicateResult :=
  let pm := buildPackageMap packages
  let st := packages.foldl
    (fun st pkg => (groupsForName groups pkg.name).foldl (processGroup pm) st) ([], [])
  let totalPotentialSavings := st.1.foldl (fun total d => total + groupSavings d) 0
  let sorted := List.insertionSort fdGe st.1
  ⟨sorted, sorted.length, totalPotentialSavings⟩

/-! ### Facts about the detector pipeline -/

theorem mem_processGroup {pm : List (String × PackageInfo)}
    {st : List FunctionalDuplicate × List String} {g : FunctionalDuplicateGroup}
    {d : FunctionalDuplicate} (hd : d ∈ (processGroup pm st g).1) :
    d ∈ st.1 ∨ (d = mkDup pm g ∧ 1 < (foundOf pm g).length) := by
  unfold processGroup at hd
  split_ifs at hd with h1 h2
  · exact Or.inl hd
  · rcases List.mem_append.mp hd with hd' | hd'
    · exact Or.inl hd'
    · exact Or.inr ⟨List.mem_singleton.mp hd', h2⟩
  · exact Or.inl hd

theorem mem_foldl_processGroup {pm : List (String × PackageInfo)} :
    ∀ (gs : List FunctionalDuplicateGroup) (st : List FunctionalDuplicate × List String)
      (d : FunctionalDuplicate), d ∈ (gs.foldl (processGroup pm) st).1 →
      d ∈ st.1 ∨ ∃ g ∈ gs, d = mkDup pm g ∧ 1 < (foundOf pm g).length := by
  intro gs
  induction gs with
  | nil =>
    intro st d hd
    exact Or.inl hd
  | cons g gs ih =>
    intro st d hd
    rw [List.foldl_cons] at hd
    rcases ih (processGroup pm st g) d hd with hd' | ⟨g', hg', hdup⟩
    · rcases mem_processGroup hd' with hd'' | hdup
      · exact Or.inl hd''
      · exact Or.inr ⟨g, List.mem_cons_self g gs, hdup⟩
    · exact Or.inr ⟨g', List.mem_cons_of_mem g hg', hdup⟩

theorem mem_analyzeFD {groups : List FunctionalDuplicateGroup}
    {packages : List PackageInfo} {d : FunctionalDuplicate}
    (hd : d ∈ (analyzeFD groups packages).duplicates) :
    ∃ g ∈ groups, d = mkDup (buildPackageMap packages) g ∧
      1 < (foundOf (buildPackageMap packages) g).length := by
  simp only [analyzeFD] at hd
  have hd' := (List.perm_insertionSort fdGe _).mem_iff.mp hd
  clear hd
  suffices h : ∀ (ps : List PackageInfo) (st : List FunctionalDuplicate × List String),
      d ∈ (ps.foldl (fun st pkg =>
        (groupsForName groups pkg.name).foldl (processGroup (buildPackageMap packages)) st) st).1 →
      d ∈ st.1 ∨ ∃ g ∈ groups, d = mkDup (buildPackageMap packages) g ∧
        1 < (foundOf (buildPackageMap packages) g).length by
    rcases h packages ([], []) hd' with h' | h'
    · exact absurd h' (List.not_mem_nil d)
    · exact h'
  intro ps
  induction ps with
  | nil =>
    intro st hd
    exact Or.inl hd
  | cons p ps ih =>
    intro st hd
    rw [List.foldl_cons] at hd
    rcases ih _ hd with hd' | h'
    · rcases mem_foldl_processGroup _ _ _ hd' with hd'' | ⟨g, hg, hdup⟩
      · exact Or.inl hd''
      · exact Or.inr ⟨g, (List.mem_filter.mp hg).1, hdup⟩
    · exact Or.inr h'

theorem jsMapGet_jsMapSet {α : Type} (m : List (String × α)) (k k' : String) (v : α) :
    jsMapGet (jsMapSet m k v) k' = if k = k' then some v else jsMapGet m k' := by
  induction m with
  | nil => rfl
  | cons e rest ih =>
    obtain ⟨ek, ev⟩ := e
    simp only [jsMapSet]
    by_cases h1 : ek = k
    · rw [if_pos h1]
      by_cases h2 : k = k'
      · simp [jsMapGet, h2]
      · simp [jsMapGet, h2, h1 ▸ h2]
    · rw [if_neg h1]
      by_cases h2 : ek = k'
      · have : ¬k = k' := fun hk => h1 (hk ▸ h2)
        simp [jsMapGet, h2, this]
      · simp [jsMapGet, h2, ih]

/-- The record that a loop `for (p of packages) acc = cond(p) ? p : acc`
leaves for a key: the last record whose lowercase name is the key. -/
def lastWithKey (packages : List PackageInfo) (k : String) : Option PackageInfo :=
  packages.foldl (fun acc p => if jsToLower p.name = k then some p else acc) none

theorem jsMapGet_foldl_set (k : String) :
    ∀ (ps : List PackageInfo) (m : List (String × PackageInfo)),
      jsMapGet (ps.foldl (fun m p => jsMapSet m (jsToLower p.name) p) m) k =
        ps.foldl (fun acc p => if jsToLower p.name = k then some p else acc) (jsMapGet m k) := by
  intro ps
  induction ps with
  | nil =>
    intro m
    rfl
  | cons p ps ih =>
    intro m
    rw [List.foldl_cons, List.foldl_cons, ih, jsMapGet_jsMapSet]

theorem jsMapGet_buildPackageMap (ps : List PackageInfo) (k : String) :
    jsMapGet (buildPackageMap ps) k = lastWithKey ps k := by
  unfold buildPackageMap lastWithKey
  rw [jsMapGet_foldl_set]
  rfl

theorem lastWithKey_some {k : String} :
    ∀ {ps : List PackageInfo} {p : PackageInfo}, lastWithKey ps k = some p →
      p ∈ ps ∧ jsToLower p.name = k := by
  suffices h : ∀ (ps : List PackageInfo) (acc : Option PackageInfo) (p : PackageInfo),
      ps.foldl (fun acc p => if jsToLower p.name = k then some p else acc) acc = some p →
      acc = some p ∨ (p ∈ ps ∧ jsToLower p.name = k) by
    intro ps p hp
    rcases h ps none p hp with h' | h'
    · exact absurd h' (by simp)
    · exact h'
  intro ps
  induction ps with
  | nil =>
    intro acc p hp
    exact Or.inl hp
  | cons q ps ih =>
    intro acc p hp
    rw [List.foldl_cons] at hp
    rcases ih _ p hp with h' | h'
    · by_cases hq : jsToLower q.name = k
      · rw [if_pos hq] at h'
        have : q = p := by injection h'
        exact Or.inr ⟨by rw [← this]; exact List.mem_cons_self q ps, by rw [← this]; exact hq⟩
      · rw [if_neg hq] at h'
        exact Or.inl h'
    · exact Or.inr ⟨List.mem_cons_of_mem q h'.1, h'.2⟩

theorem mem_foundOf {pm : List (String × PackageInfo)} {g : FunctionalDuplicateGroup}
    {q : FoundPackage} (hq : q ∈ foundOf pm g) :
    ∃ gpn ∈ g.packages, ∃ p, jsMapGet pm (jsToLower gpn) = some p ∧ q = mkFound p := by
  unfold foundOf at hq
  obtain ⟨gpn, hgpn, hf⟩ := List.mem_filterMap.mp hq
  cases hget : jsMapGet pm (jsToLower gpn) with
  | none => rw [hget] at hf; exact absurd hf (by simp)
  | some p =>
    rw [hget] at hf
    simp only [Option.map_some'] at hf
    exact ⟨gpn, hgpn, p, hget, (Option.some.injEq _ _ ▸ hf).symm⟩

theorem length_filterMap_eq {α β : Type} (f : α → Option β) :
    ∀ l : List α, (l.filterMap f).length = (l.filter (fun x => (f x).isSome)).length := by
  intro l
  induction l with
  | nil => rfl
  | cons x xs ih =>
    cases h : f x with
    | none => simp [List.filterMap_cons, List.filter_cons, h, ih]
    | some y => simp [List.filterMap_cons, List.filter_cons, h, ih]

theorem length_foundOf (pm : List (String × PackageInfo)) (g : FunctionalDuplicateGroup) :
    (foundOf pm g).length =
      (g.packages.filter (fun n => (jsMapGet pm (jsToLower n)).isSome)).length := by
  unfold foundOf
  rw [length_filterMap_eq]
  congr 1
  apply List.filter_congr
  intro n _
  simp

theorem foldl_add_fsize (l : List FoundPackage) :
    ∀ a : Int, l.foldl (fun s q => s + q.size) a = a + (l.map (·.size)).sum := by
  induction l with
  | nil => intro a; simp
  | cons q l ih =>
    intro a
    rw [List.foldl_cons, ih]
    simp only [List.map_cons, List.sum_cons]
    omega

theorem jsSumInt_eq_sum (l : List Int) : jsSumInt l = l.sum := by
  unfold jsSumInt
  suffices h : ∀ (xs : List Int) (a : Int), xs.foldl (· + ·) a = a + xs.sum by
    rw [h l 0]
    omega
  intro xs
  induction xs with
  | nil => intro a; simp
  | cons x xs ih =>
    intro a
    rw [List.foldl_cons, ih]
    simp only [List.sum_cons]
    omega

theorem sum_const_int {l : List Int} {s : Int} (h : ∀ x ∈ l, x = s) :
    l.sum = (l.length : Int) * s := by
  induction l with
  | nil => simp
  | cons x xs ih =>
    rw [List.sum_cons, ih (fun u hu => h u (List.mem_cons_of_mem x hu)),
      h x (List.mem_cons_self x xs), List.length_cons]
    push_cast
    ring

theorem jsMaxInt_const {l : List Int} {s : Int} (hne : l ≠ []) (h : ∀ x ∈ l, x = s) :
    jsMaxInt l = s := by
  cases l with
  | nil => exact absurd rfl hne
  | cons x xs =>
    show xs.foldl max x = s
    rw [h x (List.mem_cons_self x xs)]
    have hxs : ∀ u ∈ xs, u = s := fun u hu => h u (List.mem_cons_of_mem x hu)
    clear h hne
    induction xs with
    | nil => rfl
    | cons y ys ih =>
      rw [List.foldl_cons, hxs y (List.mem_cons_self y ys), max_self]
      exact ih (fun u hu => hxs u (List.mem_cons_of_mem y hu))

/-- C2 (counterexample): with two inventory records whose names fold to
the same lowercase key, the emitted found-entry carries the version,
size, path and level of the later record, not of the earlier one. -/
def c2Packages : List PackageInfo :=
  [⟨"dup-a", "1.0.0", "/a1", some 10, none, some 0⟩,
   ⟨"DUP-A", "2.0.0", "/a2", some 20, none, some 1⟩,
   ⟨"pkg-b", "1.0.0", "/b", some 5, none, some 0⟩]

def c2Groups : List FunctionalDuplicateGroup :=
  [⟨"Test Category", ["dup-a", "pkg-b"], some "demo", some "pkg-b"⟩]

/-- C2 (counterexample): the found-entry for the collided name reports
version `2.0.0`, size `20`, path `/a2` and level `1` — the fields of the
second (later) record, not of the first record (`1.0.0`, `10`, `/a1`,
level `0`). -/
theorem c2_lookup_counterexample :
    ((analyzeFD c2Groups c2Packages).duplicates.map
        (fun d => d.foundPackages.map (fun q => (q.name, q.version, q.size, q.path, q.level)))) =
      [[("DUP-A", "2.0.0", (20 : Int), "/a2", some (1 : Int)),
        ("pkg-b", "1.0.0", (5 : Int), "/b", some (0 : Int))]] := by
  rfl

/-- C2 (amended): the name-to-record lookup uses lowercase keys and the
last-seen record wins on collision: every emitted found-entry carries the
name, version, size, path and level of the latest inventory record whose
lowercase name matches. -/
theorem c2_lookup_spec (groups : List FunctionalDuplicateGroup)
    (packages : List PackageInfo) :
    ∀ d ∈ (analyzeFD groups packages).duplicates, ∀ q ∈ d.foundPackages,
      ∃ p ∈ packages, lastWithKey packages (jsToLower q.name) = some p ∧
        q.name = p.name ∧ q.version = p.version ∧ q.size = p.size.getD 0 ∧
        q.path = p.path ∧ q.level = p.level := by
  intro d hd q hq
  obtain ⟨g, hg, rfl, hlen⟩ := mem_analyzeFD hd
  have hq' : q ∈ foundOf (buildPackageMap packages) g := hq
  obtain ⟨gpn, hgpn, p, hget, rfl⟩ := mem_foundOf hq'
  rw [jsMapGet_buildPackageMap] at hget
  obtain ⟨hpmem, hkey⟩ := lastWithKey_some hget
  refine ⟨p, hpmem, ?_, rfl, rfl, rfl, rfl, rfl⟩
  show lastWithKey packages (jsToLower p.name) = some p
  rw [hkey]
  exact hget

/-- The duplicate entry that `analyzeFD` emits for `c2Groups` over
`c2Packages`. -/
def c2Dup : FunctionalDuplicate :=
  ⟨"Test Category", some "demo",
   [⟨"DUP-A", "2.0.0", 20, "/a2", some 1⟩, ⟨"pkg-b", "1.0.0", 5, "/b", some 0⟩],
   25, some "pkg-b"⟩

/-- C2 (witness): the amended lookup property applied to the collided
entry of the counterexample inventory. -/
theorem c2_lookup_spec_witness :
    ∃ p ∈ c2Packages,
      lastWithKey c2Packages (jsToLower (FoundPackage.name ⟨"DUP-A", "2.0.0", 20, "/a2", some 1⟩)) =
          some p ∧
        FoundPackage.name ⟨"DUP-A", "2.0.0", 20, "/a2", some 1⟩ = p.name ∧
        FoundPackage.version ⟨"DUP-A", "2.0.0", 20, "/a2", some 1⟩ = p.version ∧
        FoundPackage.size ⟨"DUP-A", "2.0.0", 20, "/a2", some 1⟩ = p.size.getD 0 ∧
        FoundPackage.path ⟨"DUP-A", "2.0.0", 20, "/a2", some 1⟩ = p.path ∧
        FoundPackage.level ⟨"DUP-A", "2.0.0", 20, "/a2", some 1⟩ = p.level :=
  c2_lookup_spec c2Groups c2Packages c2Dup (by decide)
    ⟨"DUP-A", "2.0.0", 20, "/a2", some 1⟩ (by decide)

/-- C5: a functional-duplicate group is emitted only when at least two of
its member names are present in the installed-package lookup; its found
entries are exactly the present members, so a group with a single
installed member never appears. -/
theorem c5_emission_spec (groups : List FunctionalDuplicateGroup)
    (packages : List PackageInfo) :
    ∀ d ∈ (analyzeFD groups packages).duplicates,
      2 ≤ d.foundPackages.length ∧
      ∃ g ∈ groups, d.category = g.category ∧
        d.foundPackages.length = (g.packages.filter
          (fun n => (jsMapGet (buildPackageMap packages) (jsToLower n)).isSome)).length := by
  intro d hd
  obtain ⟨g, hg, rfl, hlen⟩ := mem_analyzeFD hd
  refine ⟨by exact hlen, g, hg, rfl, ?_⟩
  show (foundOf (buildPackageMap packages) g).length = _
  exact length_foundOf _ _

/-- C5 (witness): the emission property applied to the category emitted
for the counterexample inventory. -/
theorem c5_emission_spec_witness :
    2 ≤ c2Dup.foundPackages.length ∧
      ∃ g ∈ c2Groups, c2Dup.category = g.category ∧
        c2Dup.foundPackages.length = (g.packages.filter
          (fun n => (jsMapGet (buildPackageMap c2Packages) (jsToLower n)).isSome)).length :=
  c5_emission_spec c2Groups c2Packages c2Dup (by decide)

/-- C3 (counterexample data): two installed packages of identical size
covered by one functional group. -/
def c3Packages : List PackageInfo :=
  [⟨"pkg-a", "1.0.0", "/a", some 5000, none, some 0⟩,
   ⟨"pkg-b", "1.0.0", "/b", some 5000, none, some 0⟩]

def c3Groups : List FunctionalDuplicateGroup :=
  [⟨"Equal Sizes", ["pkg-a", "pkg-b"], none, none⟩]

/-- C3 (counterexample): an emitted group whose two found members share
the identical size 5000 has potential savings 5000, not 0. -/
theorem c3_savings_counterexample :
    ((analyzeFD c3Groups c3Packages).duplicates.map
        (fun d => d.foundPackages.map (·.size))) = [[(5000 : Int), 5000]] ∧
      ((analyzeFD c3Groups c3Packages).duplicates.map groupSavings) = [(5000 : Int)] := by
  constructor
  · decide
  · decide

/-- C3 (amended): for every emitted group, the potential savings (total
size of found members minus the largest member size) is at most the
group total size (given non-negative record sizes), and when all found
members share the identical size s the savings equal (count - 1) * s —
zero only when s is zero. -/
theorem c3_savings_spec (groups : List FunctionalDuplicateGroup)
    (packages : List PackageInfo)
    (hsize : ∀ p ∈ packages, 0 ≤ p.size.getD 0) :
    ∀ d ∈ (analyzeFD groups packages).duplicates,
      groupSavings d ≤ d.totalSize ∧
      ∀ s : Int, (∀ q ∈ d.foundPackages, q.size = s) →
        groupSavings d = ((d.foundPackages.length : Int) - 1) * s := by
  intro d hd
  obtain ⟨g, hg, rfl, hlen⟩ := mem_analyzeFD hd
  have hfp : (mkDup (buildPackageMap packages) g).foundPackages =
      foundOf (buildPackageMap packages) g := rfl
  have hts : (mkDup (buildPackageMap packages) g).totalSize =
      ((foundOf (buildPackageMap packages) g).map (·.size)).sum := by
    show (foundOf (buildPackageMap packages) g).foldl _ 0 = _
    rw [foldl_add_fsize]
    omega
  have hne : (foundOf (buildPackageMap packages) g).map (·.size) ≠ [] := by
    intro hnil
    have h0 : ((foundOf (buildPackageMap packages) g).map (·.size)).length = 0 := by
      rw [hnil]
      rfl
    rw [List.length_map] at h0
    omega
  have hpos : ∀ x ∈ (foundOf (buildPackageMap packages) g).map (·.size), 0 ≤ x := by
    intro x hx
    obtain ⟨q, hq, rfl⟩ := List.mem_map.mp hx
    obtain ⟨gpn, hgpn, p, hget, rfl⟩ := mem_foundOf hq
    rw [jsMapGet_buildPackageMap] at hget
    exact hsize p (lastWithKey_some hget).1
  have hsav : groupSavings (mkDup (buildPackageMap packages) g) =
      ((foundOf (buildPackageMap packages) g).map (·.size)).sum -
        jsMaxInt ((foundOf (buildPackageMap packages) g).map (·.size)) := by
    unfold groupSavings
    have hlen' : 1 < (mkDup (buildPackageMap packages) g).foundPackages.length := hlen
    rw [if_neg (by omega), jsSumInt_eq_sum]
    rfl
  constructor
  · rw [hsav, hts]
    have hmax := jsMaxInt_mem hne
    have := hpos _ hmax
    omega
  · intro s hs
    have hs' : ∀ x ∈ (foundOf (buildPackageMap packages) g).map (·.size), x = s := by
      intro x hx
      obtain ⟨q, hq, rfl⟩ := List.mem_map.mp hx
      exact hs q hq
    rw [hsav, sum_const_int hs', jsMaxInt_const hne hs']
    have hlenfp : (mkDup (buildPackageMap packages) g).foundPackages.length =
        (foundOf (buildPackageMap packages) g).length := rfl
    rw [hlenfp]
    simp only [List.length_map]
    ring

/-- The duplicate entry that `analyzeFD` emits for `c3Groups` over
`c3Packages`. -/
def c3Dup : FunctionalDuplicate :=
  ⟨"Equal Sizes", none,
   [⟨"pkg-a", "1.0.0", 5000, "/a", some 0⟩, ⟨"pkg-b", "1.0.0", 5000, "/b", some 0⟩],
   10000, none⟩

/-- C3 (witness): the amended savings property applied to the emitted
equal-size group. -/
theorem c3_savings_spec_witness :
    groupSavings c3Dup ≤ c3Dup.totalSize ∧
      ∀ s : Int, (∀ q ∈ c3Dup.foundPackages, q.size = s) →
        groupSavings c3Dup = ((c3Dup.foundPackages.length : Int) - 1) * s :=
  c3_savings_spec c3Groups c3Packages (by decide) c3Dup (by decide)

/-! ## Embedding of `src/features/functional-duplicates/similarity-analyzer.ts`

Scores are modeled as exact rationals (the JS weights 0.6, 0.3, 0.1, 0.7
are the corresponding exact fractions); `\w` and the lowercase map are
modeled on ASCII. -/

/-- The `PackageMetadata` interface of `package-analyzer.ts`. -/
structure PackageMetadata where
  name : String
  version : String
  description : Option String
  keywords : Option (List String)
  repository : Option String
  homepage : Option String
  author : Option String
  license : Option String
deriving DecidableEq, Repr

structure SimilarityScore where
  package1 : String
  package2 : String
  score : ℚ
  reasons : List String
deriving DecidableEq, Repr

/-- The defining recurrence of the DP matrix filled by
`levenshteinDistance`: the matrix entry for the full strings equals this
recurrence on their character lists (`min` over deletion, insertion and
substitution, in the order of the source). -/
def levenshtein : List Char → List Char → Nat
  | [], ys => ys.length
  | xs, [] => xs.length
  | x :: xs, y :: ys =>
    if x = y then levenshtein xs ys
    else 1 + min (levenshtein xs (y :: ys)) (min (levenshtein (x :: xs) ys) (levenshtein xs ys))
termination_by xs ys => xs.length + ys.length
decreasing_by all_goals simp_arith

/-- The stop-word array of `extractWords` (the JS `Set` built from it has
the same membership). -/
def stopWords : List String :=
  ["a", "an", "and", "are", "as", "at", "be", "by", "for", "from",
   "has", "he", "in", "is", "it", "its", "of", "on", "that", "the",
   "to", "was", "will", "with", "the", "this", "but", "they", "have",
   "had", "what", "said", "each", "which", "their", "time", "if",
   "up", "out", "many", "then", "them", "these", "so", "some", "her",
   "would", "make", "like", "into", "him", "has", "two", "more", "very",
   "after", "words", "long", "than", "first", "been", "call", "who",
   "oil", "sit", "now", "find", "down", "day", "did", "get", "come",
   "made", "may", "part", "library", "libraries", "package", "packages",
   "npm", "node", "js", "javascript", "typescript", "ts"]

/-- The regex class `\w` (ASCII model). -/
def isWordChar (c : Char) : Bool := c.isAlphanum || c = '_'

/-- Split on whitespace runs.  `String.prototype.split(/\s+/)` can also
produce one empty leading token, which the length filter of
`extractWords` discards, so dropping empty tokens here is
result-equivalent. -/
def splitWsAux : List Char → List Char → List String
  | [], acc => if acc.isEmpty then [] else [String.mk acc.reverse]
  | c :: cs, acc =>
    if c.isWhitespace then
      if acc.isEmpty then splitWsAux cs []
      else String.mk acc.reverse :: splitWsAux cs []
    else splitWsAux cs (c :: acc)

def splitWs (cs : List Char) : List String := splitWsAux cs []

/-- Embedding of `SimilarityAnalyzer.extractWords`: lowercase, replace
every character outside `\w` and `\s` by a space, split on whitespace and
keep the non-stop-words of length above 2. -/
def extractWords (text : String) : List String :=
  let cleaned :=
    (jsToLower text).data.map (fun c => if !isWordChar c && !c.isWhitespace then ' ' else c)
  (splitWs cleaned).filter (fun word => decide (2 < word.length) && !stopWords.contains word)

/-- Embedding of `SimilarityAnalyzer.calculateWordOverlap` (Jaccard
similarity of the two word sets). -/
def calculateWordOverlap (words1 words2 : List String) : ℚ :=
  if words1.isEmpty || words2.isEmpty then 0
  else
    let set1 := words1.toFinset
    let set2 := words2.toFinset
    if 0 < (set1 ∪ set2).card then ((set1 ∩ set2).card : ℚ) / ((set1 ∪ set2).card : ℚ)
    else 0

/-- Embedding of `SimilarityAnalyzer.calculateTextSimilarity`. -/
def calculateTextSimilarity (text1 text2 : String) : ℚ :=
  if text1 = "" || text2 = "" then 0
  else if text1 = text2 then 1
  else
    let wordOverlap := calculateWordOverlap (extractWords text1) (extractWords text2)
    let maxLen : ℚ := max (text1.length : ℚ) (text2.length : ℚ)
    let levenshteinScore :=
      if 0 < maxLen then 1 - (levenshtein text1.data text2.data : ℚ) / maxLen else 0
    wordOverlap * (7 / 10) + levenshteinScore * (3 / 10)

/-- Embedding of `SimilarityAnalyzer.calculateKeywordOverlap` (Jaccard
similarity of the lowercased keyword sets). -/
def calculateKeywordOverlap (keywords1 keywords2 : List String) : ℚ :=
  if keywords1.isEmpty || keywords2.isEmpty then 0
  else
    let set1 := (keywords1.map jsToLower).toFinset
    let set2 := (keywords2.map jsToLower).toFinset
    if 0 < (set1 ∪ set2).card then ((set1 ∩ set2).card : ℚ) / ((set1 ∪ set2).card : ℚ)
    else 0

/-- The guard `pkg.keywords && pkg.keywords.length > 0` (an array is
always truthy, so the guard is presence plus nonemptiness). -/
def kwPresent : Option (List String) → Bool
  | none => false
  | some l => !l.isEmpty

/-- Embedding of `SimilarityAnalyzer.calculateSimilarity`: the weighted
accumulation of the description, keyword and name channels, written as
one expression (each channel contributes its score times its weight and
its weight to the sums exactly when its guard holds, in source order). -/
def calculateSimilarity (pkg1 pkg2 : PackageMetadata) : SimilarityScore :=
  let descApplies := strTruthy pkg1.description && strTruthy pkg2.description
  let descScore := calculateTextSimilarity (jsToLower (pkg1.description.getD ""))
    (jsToLower (pkg2.description.getD ""))
  let kwApplies := kwPresent pkg1.keywords && kwPresent pkg2.keywords
  let keywordScore := calculateKeywordOverlap (pkg1.keywords.getD []) (pkg2.keywords.getD [])
  let nameScore := calculateTextSimilarity (jsToLower pkg1.name) (jsToLower pkg2.name)
  let totalScore := (if descApplies then descScore * (6 / 10) else 0) +
    (if kwApplies then keywordScore * (3 / 10) else 0) + nameScore * (1 / 10)
  let weightSum := (if descApplies then (6 / 10 : ℚ) else 0) +
    (if kwApplies then (3 / 10 : ℚ) else 0) + 1 / 10
  let reasons :=
    (if descApplies && decide ((1 : ℚ) / 2 < descScore) then ["similar descriptions"] else []) ++
      (if kwApplies && decide ((3 : ℚ) / 10 < keywordScore) then ["shared keywords"] else [])
  let finalScore := if 0 < weightSum then totalScore / weightSum else 0
  ⟨pkg1.name, pkg2.name, finalScore, reasons⟩

/-! ### Facts about the similarity scorer -/

theorem levenshtein_le_aux :
    ∀ (n : Nat) (xs ys : List Char), xs.length + ys.length ≤ n →
      levenshtein xs ys ≤ max xs.length ys.length := by
  intro n
  induction n with
  | zero =>
    intro xs ys h
    cases xs with
    | nil =>
      cases ys with
      | nil => simp [levenshtein]
      | cons y ys => simp at h
    | cons x xs => simp at h
  | succ n ih =>
    intro xs ys h
    cases xs with
    | nil => simp [levenshtein]
    | cons x xs =>
      cases ys with
      | nil => simp [levenshtein]
      | cons y ys =>
        simp only [levenshtein, List.length_cons]
        have hsum : xs.length + ys.length ≤ n := by
          simp only [List.length_cons] at h
          omega
        by_cases hxy : x = y
        · rw [if_pos hxy]
          have h1 := ih xs ys hsum
          omega
        · rw [if_neg hxy]
          have h3 := ih xs ys hsum
          omega

theorem levenshtein_le_max (xs ys : List Char) :
    levenshtein xs ys ≤ max xs.length ys.length :=
  levenshtein_le_aux (xs.length + ys.length) xs ys le_rfl

theorem levenshtein_symm_aux :
    ∀ (n : Nat) (xs ys : List Char), xs.length + ys.length ≤ n →
      levenshtein xs ys = levenshtein ys xs := by
  intro n
  induction n with
  | zero =>
    intro xs ys h
    cases xs with
    | nil =>
      cases ys with
      | nil => rfl
      | cons y ys => simp at h
    | cons x xs => simp at h
  | succ n ih =>
    intro xs ys h
    cases xs with
    | nil => cases ys <;> simp [levenshtein]
    | cons x xs =>
      cases ys with
      | nil => simp [levenshtein]
      | cons y ys =>
        have hsum : xs.length + ys.length ≤ n := by
          simp only [List.length_cons] at h
          omega
        have hsum1 : xs.length + (y :: ys).length ≤ n := by
          simp only [List.length_cons] at h ⊢
          omega
        have hsum2 : (x :: xs).length + ys.length ≤ n := by
          simp only [List.length_cons] at h ⊢
          omega
        simp only [levenshtein]
        by_cases hxy : x = y
        · rw [if_pos hxy, if_pos hxy.symm, ih xs ys hsum]
        · rw [if_neg hxy, if_neg (fun hyx => hxy hyx.symm),
            ih xs (y :: ys) hsum1, ih (x :: xs) ys hsum2, ih xs ys hsum]
          omega

theorem levenshtein_symm (xs ys : List Char) : levenshtein xs ys = levenshtein ys xs :=
  levenshtein_symm_aux (xs.length + ys.length) xs ys le_rfl

theorem calculateWordOverlap_bounds (w1 w2 : List String) :
    0 ≤ calculateWordOverlap w1 w2 ∧ calculateWordOverlap w1 w2 ≤ 1 := by
  simp only [calculateWordOverlap]
  split_ifs with h1 h2
  · norm_num
  · have hsub : w1.toFinset ∩ w2.toFinset ⊆ w1.toFinset ∪ w2.toFinset :=
      le_trans Finset.inter_subset_left Finset.subset_union_left
    have hcard := Finset.card_le_card hsub
    constructor
    · positivity
    · rw [div_le_one (by exact_mod_cast h2)]
      exact_mod_cast hcard
  · norm_num

theorem calculateKeywordOverlap_bounds (k1 k2 : List String) :
    0 ≤ calculateKeywordOverlap k1 k2 ∧ calculateKeywordOverlap k1 k2 ≤ 1 := by
  simp only [calculateKeywordOverlap]
  split_ifs with h1 h2
  · norm_num
  · have hsub : (k1.map jsToLower).toFinset ∩ (k2.map jsToLower).toFinset ⊆
        (k1.map jsToLower).toFinset ∪ (k2.map jsToLower).toFinset :=
      le_trans Finset.inter_subset_left Finset.subset_union_left
    have hcard := Finset.card_le_card hsub
    constructor
    · positivity
    · rw [div_le_one (by exact_mod_cast h2)]
      exact_mod_cast hcard
  · norm_num

theorem calculateTextSimilarity_bounds (t1 t2 : String) :
    0 ≤ calculateTextSimilarity t1 t2 ∧ calculateTextSimilarity t1 t2 ≤ 1 := by
  have hlev := levenshtein_le_max t1.data t2.data
  obtain ⟨hw0, hw1⟩ := calculateWordOverlap_bounds (extractWords t1) (extractWords t2)
  simp only [calculateTextSimilarity]
  split_ifs with h1 h2 hm
  · norm_num
  · norm_num
  · have hlevq : (levenshtein t1.data t2.data : ℚ) ≤
        max (t1.length : ℚ) (t2.length : ℚ) := by
      calc (levenshtein t1.data t2.data : ℚ) ≤ ((max t1.data.length t2.data.length : Nat) : ℚ) := by
            exact_mod_cast hlev
        _ = max (t1.length : ℚ) (t2.length : ℚ) := by push_cast; rfl
    have h01 : (levenshtein t1.data t2.data : ℚ) / max (t1.length : ℚ) (t2.length : ℚ) ≤ 1 := by
      rw [div_le_one hm]
      exact hlevq
    have h00 : 0 ≤ (levenshtein t1.data t2.data : ℚ) / max (t1.length : ℚ) (t2.length : ℚ) :=
      div_nonneg (by positivity) hm.le
    constructor <;> nlinarith
  · constructor <;> nlinarith

theorem jsToLower_empty : jsToLower "" = "" := rfl

/-- C6 (counterexample): on metadata with an empty name (and no
description), the similarity of the record with itself is 0, so the name
channel does not evaluate to 1 on identical metadata. -/
theorem c6_similarity_counterexample :
    (calculateSimilarity ⟨"", "1.0.0", none, none, none, none, none, none⟩
        ⟨"", "1.0.0", none, none, none, none, none, none⟩).score = 0 := by
  simp only [calculateSimilarity, strTruthy, kwPresent, Bool.and_self, Bool.and_false,
    if_neg, Bool.false_eq_true, ite_false]
  norm_num [calculateTextSimilarity, jsToLower_empty]

/-- C6 (amended): the similarity score lies in [0, 1] for any two
metadata inputs; on identical metadata the description channel (which
only applies when both descriptions are present and non-empty) evaluates
to 1, and the name channel evaluates to 1 provided the name is
non-empty. -/
theorem c6_similarity_spec (pkg1 pkg2 m : PackageMetadata) :
    (0 ≤ (calculateSimilarity pkg1 pkg2).score ∧ (calculateSimilarity pkg1 pkg2).score ≤ 1) ∧
    (strTruthy m.description = true →
      calculateTextSimilarity (jsToLower (m.description.getD ""))
        (jsToLower (m.description.getD "")) = 1) ∧
    (m.name ≠ "" →
      calculateTextSimilarity (jsToLower m.name) (jsToLower m.name) = 1) := by
  refine ⟨?_, ?_, ?_⟩
  · simp only [calculateSimilarity]
    obtain ⟨hd0, hd1⟩ := calculateTextSimilarity_bounds
      (jsToLower (pkg1.description.getD "")) (jsToLower (pkg2.description.getD ""))
    obtain ⟨hk0, hk1⟩ := calculateKeywordOverlap_bounds
      (pkg1.keywords.getD []) (pkg2.keywords.getD [])
    obtain ⟨hn0, hn1⟩ := calculateTextSimilarity_bounds
      (jsToLower pkg1.name) (jsToLower pkg2.name)
    by_cases hda : (strTruthy pkg1.description && strTruthy pkg2.description) = true
    · by_cases hka : (kwPresent pkg1.keywords && kwPresent pkg2.keywords) = true
      · simp only [if_pos hda, if_pos hka]
        rw [if_pos (by norm_num : (0 : ℚ) < 6 / 10 + 3 / 10 + 1 / 10)]
        constructor
        · exact div_nonneg (by linarith) (by norm_num)
        · rw [div_le_one (by norm_num)]
          linarith
      · simp only [if_pos hda, if_neg hka]
        rw [if_pos (by norm_num : (0 : ℚ) < 6 / 10 + 0 + 1 / 10)]
        constructor
        · exact div_nonneg (by linarith) (by norm_num)
        · rw [div_le_one (by norm_num)]
          linarith
    · by_cases hka : (kwPresent pkg1.keywords && kwPresent pkg2.keywords) = true
      · simp only [if_neg hda, if_pos hka]
        rw [if_pos (by norm_num : (0 : ℚ) < 0 + 3 / 10 + 1 / 10)]
        constructor
        · exact div_nonneg (by linarith) (by norm_num)
        · rw [div_le_one (by norm_num)]
          linarith
      · simp only [if_neg hda, if_neg hka]
        rw [if_pos (by norm_num : (0 : ℚ) < 0 + 0 + 1 / 10)]
        constructor
        · exact div_nonneg (by linarith) (by norm_num)
        · rw [div_le_one (by norm_num)]
          linarith
  · intro hm
    match hdesc : m.description with
    | none => rw [hdesc] at hm; simp [strTruthy] at hm
    | some s =>
      rw [hdesc] at hm
      simp only [strTruthy, decide_eq_true_eq] at hm
      simp only [hdesc, Option.getD_some]
      have hne : jsToLower s ≠ "" := by
        intro hzero
        apply hm
        have hdata : s.data.map Char.toLower = [] := congrArg String.data hzero
        rw [List.map_eq_nil] at hdata
        exact String.ext hdata
      simp only [calculateTextSimilarity]
      rw [if_neg (by simp [hne])]
      simp
  · intro hm
    have hne : jsToLower m.name ≠ "" := by
      intro hzero
      apply hm
      have hdata : m.name.data.map Char.toLower = [] := congrArg String.data hzero
      rw [List.map_eq_nil] at hdata
      exact String.ext hdata
    simp only [calculateTextSimilarity]
    rw [if_neg (by simp [hne])]
    simp

/-- A metadata record with non-empty name and description used to
instantiate the similarity properties. -/
def demoMetadata : PackageMetadata :=
  ⟨"abc", "1.0.0", some "xy", some ["k"], none, none, none, none⟩

/-- C6 (witness): the bounds and the identity of the two text channels
evaluated on a concrete record compared with itself. -/
theorem c6_similarity_spec_witness :
    (0 ≤ (calculateSimilarity demoMetadata demoMetadata).score ∧
      (calculateSimilarity demoMetadata demoMetadata).score ≤ 1) ∧
    calculateTextSimilarity (jsToLower (demoMetadata.description.getD ""))
      (jsToLower (demoMetadata.description.getD "")) = 1 ∧
    calculateTextSimilarity (jsToLower demoMetadata.name) (jsToLower demoMetadata.name) = 1 := by
  obtain ⟨h1, h2, h3⟩ := c6_similarity_spec demoMetadata demoMetadata demoMetadata
  exact ⟨h1, h2 (by decide), h3 (by decide)⟩

theorem calculateWordOverlap_comm (w1 w2 : List String) :
    calculateWordOverlap w1 w2 = calculateWordOverlap w2 w1 := by
  simp only [calculateWordOverlap]
  rw [Bool.or_comm, Finset.inter_comm, Finset.union_comm]

theorem calculateKeywordOverlap_comm (k1 k2 : List String) :
    calculateKeywordOverlap k1 k2 = calculateKeywordOverlap k2 k1 := by
  simp only [calculateKeywordOverlap]
  rw [Bool.or_comm, Finset.inter_comm, Finset.union_comm]

theorem calculateTextSimilarity_comm (t1 t2 : String) :
    calculateTextSimilarity t1 t2 = calculateTextSimilarity t2 t1 := by
  simp only [calculateTextSimilarity]
  by_cases h1 : t1 = ""
  · by_cases h2 : t2 = "" <;> simp [h1, h2]
  · by_cases h2 : t2 = ""
    · simp [h1, h2]
    · by_cases h12 : t1 = t2
      · subst h12
        rfl
      · have h21 : ¬(t2 = t1) := fun h => h12 h.symm
        simp only [if_neg h12, if_neg h21,
          if_neg (show ¬((decide (t1 = "") || decide (t2 = "")) = true) by simp [h1, h2]),
          if_neg (show ¬((decide (t2 = "") || decide (t1 = "")) = true) by simp [h1, h2])]
        rw [calculateWordOverlap_comm (extractWords t1) (extractWords t2),
          max_comm (t1.length : ℚ) (t2.length : ℚ), levenshtein_symm t1.data t2.data]

/-- C9: the similarity score is exactly symmetric — every channel and
every channel guard is symmetric in the two metadata records. -/
theorem c9_similarity_symm (pkg1 pkg2 : PackageMetadata) :
    (calculateSimilarity pkg1 pkg2).score = (calculateSimilarity pkg2 pkg1).score := by
  simp only [calculateSimilarity]
  rw [Bool.and_comm (strTruthy pkg1.description),
    Bool.and_comm (kwPresent pkg1.keywords),
    calculateTextSimilarity_comm (jsToLower (pkg1.description.getD "")),
    calculateKeywordOverlap_comm (pkg1.keywords.getD []),
    calculateTextSimilarity_comm (jsToLower pkg1.name)]

/-! ## Embedding of `src/features/functional-duplicates/cache.ts`
(class DynamicGroupsCache)

The backing storage is modeled by its observable parse outcome: `none`
when the cache file does not exist (`existsSync` false), `some (.error ())`
when reading or JSON parsing throws (corrupt or unreadable file — the
`catch` turns this into a miss), and `some (.ok entry)` when the file
parses.  `Date.now()` is the `now` parameter. -/

structure CacheEntry where
  groups : List FunctionalDuplicateGroup
  packageNames : List String
  timestamp : Int
  ttl : Int
deriving DecidableEq, Repr

/-- Embedding of `DynamicGroupsCache.getCachedGroups`.  The JS `Set`
construction only deduplicates; `every` over the deduplicated requested
names equals `all` over the requested list, and `Set.has` equals list
membership of the lowercased cached names. -/
def getCachedGroups (storage : Option (Except Unit CacheEntry)) (now : Int)
    (packageNames : List String) : Option (List FunctionalDuplicateGroup) :=
  match storage with
  | none => none
  | some (.error _) => none
  | some (.ok cache) =>
    if cache.ttl < now - cache.timestamp then none
    else
      let cachedNames := cache.packageNames.map jsToLower
      let requestedNames := packageNames.map jsToLower
      if requestedNames.all (fun name => cachedNames.contains name) then some cache.groups
      else none

theorem contains_true_iff_mem (l : List String) (a : String) :
    l.contains a = true ↔ a ∈ l := by
  simp

/-- C7: the cache read returns none exactly when no record exists, the
record is corrupt or unreadable, the record is expired
(now - timestamp > ttl), or some requested name is missing from the
cached name set (case-insensitively); otherwise it returns the cached
group list.  A corrupt record is a miss, never a failure (the function
is total). -/
theorem c7_cacheGet_spec (storage : Option (Except Unit CacheEntry)) (now : Int)
    (packageNames : List String) :
    (getCachedGroups storage now packageNames = none ↔
      storage = none ∨ storage = some (.error ()) ∨
        ∃ cache, storage = some (.ok cache) ∧
          (cache.ttl < now - cache.timestamp ∨
            ∃ n ∈ packageNames, jsToLower n ∉ cache.packageNames.map jsToLower)) ∧
    (∀ cache, storage = some (.ok cache) → now - cache.timestamp ≤ cache.ttl →
      (∀ n ∈ packageNames, jsToLower n ∈ cache.packageNames.map jsToLower) →
      getCachedGroups storage now packageNames = some cache.groups) := by
  constructor
  · cases storage with
    | none => simp [getCachedGroups]
    | some r =>
      cases r with
      | error e =>
        cases e
        simp [getCachedGroups]
      | ok cache =>
        simp only [getCachedGroups]
        split_ifs with hexp hall
        · exact iff_of_true rfl (Or.inr (Or.inr ⟨cache, rfl, Or.inl hexp⟩))
        · rw [List.all_eq_true] at hall
          apply iff_of_false (by simp)
          rintro (h | h | ⟨c, hc, hrest⟩)
          · simp at h
          · simp at h
          · have hcc : c = cache := by
              injection hc with hc1
              injection hc1 with hc2
              exact hc2.symm
            subst hcc
            rcases hrest with hexp2 | ⟨n, hn, hnotin⟩
            · exact hexp hexp2
            · apply hnotin
              have := hall (jsToLower n) (List.mem_map_of_mem jsToLower hn)
              rwa [contains_true_iff_mem] at this
        · refine iff_of_true rfl (Or.inr (Or.inr ⟨cache, rfl, Or.inr ?_⟩))
          rw [List.all_eq_true] at hall
          push_neg at hall
          obtain ⟨x, hx, hxc⟩ := hall
          obtain ⟨n, hn, rfl⟩ := List.mem_map.mp hx
          refine ⟨n, hn, ?_⟩
          intro hmem
          apply hxc
          rw [contains_true_iff_mem]
          exact hmem
  · intro cache hc hfresh hsub
    rw [hc]
    simp only [getCachedGroups]
    rw [if_neg (by omega), if_pos]
    rw [List.all_eq_true]
    intro x hx
    obtain ⟨n, hn, rfl⟩ := List.mem_map.mp hx
    rw [contains_true_iff_mem]
    exact hsub n hn

/-- C7 (witness): a fresh record covering the requested subset is a hit,
and adding one extra requested name turns the same record into a miss. -/
theorem c7_cacheGet_spec_witness :
    getCachedGroups (some (.ok ⟨[], ["a", "b"], 0, 100⟩)) 50 ["a", "b"] =
        some (CacheEntry.groups ⟨[], ["a", "b"], 0, 100⟩) ∧
      getCachedGroups (some (.ok ⟨[], ["a", "b"], 0, 100⟩)) 50 ["a", "b", "c"] = none :=
  ⟨(c7_cacheGet_spec (some (.ok ⟨[], ["a", "b"], 0, 100⟩)) 50 ["a", "b"]).2
      ⟨[], ["a", "b"], 0, 100⟩ rfl (by decide) (by decide),
    (c7_cacheGet_spec (some (.ok ⟨[], ["a", "b"], 0, 100⟩)) 50 ["a", "b", "c"]).1.mpr
      (Or.inr (Or.inr ⟨⟨[], ["a", "b"], 0, 100⟩, rfl, Or.inr ⟨"c", by decide, by decide⟩⟩))⟩

/-! ## Embedding of the registry client slot discipline
(`NpmClient.waitForSlot` / `NpmClient.processQueue`)

JavaScript runs each synchronous section atomically, so the slot counter
and FIFO queue change only at the discrete events modeled here: a fetch
asking for a slot (`waitForSlot`), and a fetch completing (the `finally`
block: decrement then `processQueue`).  The `running` field is auxiliary
state that records the identities of in-flight requests (those whose
`waitForSlot` has resolved and whose `finally` has not run); the code
counts them in `activeRequests`. -/

def maxConcurrentRequests : Nat := 5

structure NpmClientState where
  activeRequests : Nat
  requestQueue : List Nat
  running : List Nat
deriving DecidableEq, Repr

/-- Embedding of `NpmClient.waitForSlot`: below the cap the request takes
a slot immediately; otherwise its resolver is appended to the back of
`requestQueue`. -/
def waitForSlot (s : NpmClientState) (id : Nat) : NpmClientState :=
  if s.activeRequests < maxConcurrentRequests then
    { s with activeRequests := s.activeRequests + 1, running := s.running ++ [id] }
  else
    { s with requestQueue := s.requestQueue ++ [id] }

/-- Embedding of `NpmClient.processQueue`: when the queue is non-empty
and a slot is free, shift the front waiter, take the slot and resume it. -/
def processQueue (s : NpmClientState) : NpmClientState :=
  match s.requestQueue with
  | [] => s
  | r :: rest =>
    if s.activeRequests < maxConcurrentRequests then
      { activeRequests := s.activeRequests + 1
        requestQueue := rest
        running := s.running ++ [r] }
    else s

/-- Embedding of the `finally` block of `fetchPackageMetadata`:
`this.activeRequests--; this.processQueue()`. -/
def finishRequest (s : NpmClientState) (id : Nat) : NpmClientState :=
  processQueue
    { s with
        activeRequests := s.activeRequests - 1
        running := s.running.erase id }

def initClientState : NpmClientState := ⟨0, [], []⟩

/-- The atomic events of the client: a new fetch asks for a slot, or an
in-flight fetch completes. -/
inductive NpmStep : NpmClientState → NpmClientState → Prop where
  | arrive (s : NpmClientState) (id : Nat) : NpmStep s (waitForSlot s id)
  | finish (s : NpmClientState) (id : Nat) (h : id ∈ s.running) :
      NpmStep s (finishRequest s id)

inductive NpmReachable : NpmClientState → Prop where
  | init : NpmReachable initClientState
  | step {s t : NpmClientState} : NpmReachable s → NpmStep s t → NpmReachable t

theorem clientInv_step {s t : NpmClientState} (hst : NpmStep s t)
    (ih : s.activeRequests = s.running.length ∧
      s.activeRequests ≤ maxConcurrentRequests) :
    t.activeRequests = t.running.length ∧
      t.activeRequests ≤ maxConcurrentRequests := by
  obtain ⟨ih1, ih2⟩ := ih
  cases hst with
  | arrive id =>
    unfold waitForSlot
    split_ifs with hlt
    · refine ⟨?_, ?_⟩ <;> simp [List.length_append] <;> omega
    · exact ⟨ih1, ih2⟩
  | finish id hid =>
    have hlen1 : 0 < s.running.length := List.length_pos_of_mem hid
    have herase : (s.running.erase id).length = s.running.length - 1 :=
      List.length_erase_of_mem hid
    unfold finishRequest processQueue
    cases hq : s.requestQueue with
    | nil => refine ⟨?_, ?_⟩ <;> simp [hq, herase] <;> omega
    | cons w rest =>
      simp only [hq]
      split_ifs with hlt
      · refine ⟨?_, ?_⟩ <;> simp [List.length_append, herase] <;> omega
      · refine ⟨?_, ?_⟩ <;> simp [herase] <;> omega

theorem clientInv_reachable {s : NpmClientState} (h : NpmReachable s) :
    s.activeRequests = s.running.length ∧
      s.activeRequests ≤ maxConcurrentRequests := by
  induction h with
  | init => exact ⟨rfl, by decide⟩
  | step hr hstep ih => exact clientInv_step hstep ih

/-- C8: in every reachable state of the registry client the number of
in-flight requests equals the slot counter and never exceeds the cap of
5; at the cap a new request is appended to the back of the FIFO queue,
and a completing request with a non-empty queue hands its slot to the
front waiter (the counter is unchanged, the waiter moves from the queue
front into the running set — no slot leaks). -/
theorem c8_npmClient_concurrency (s : NpmClientState) (hs : NpmReachable s) :
    s.activeRequests = s.running.length ∧
    s.running.length ≤ maxConcurrentRequests ∧
    (∀ id, maxConcurrentRequests ≤ s.activeRequests →
      waitForSlot s id = { s with requestQueue := s.requestQueue ++ [id] }) ∧
    (∀ id w rest, id ∈ s.running → s.requestQueue = w :: rest →
      (finishRequest s id).activeRequests = s.activeRequests ∧
      (finishRequest s id).requestQueue = rest ∧
      (finishRequest s id).running = s.running.erase id ++ [w]) := by
  obtain ⟨h1, h2⟩ := clientInv_reachable hs
  refine ⟨h1, by omega, ?_, ?_⟩
  · intro id hfull
    unfold waitForSlot
    rw [if_neg (by omega)]
  · intro id w rest hid hq
    have hlen1 : 0 < s.running.length := List.length_pos_of_mem hid
    unfold finishRequest processQueue
    simp only [hq]
    rw [if_pos (by omega)]
    refine ⟨?_, rfl, rfl⟩
    show s.activeRequests - 1 + 1 = s.activeRequests
    omega

/-- The state after six successive requests hitting an idle client: five
take slots, the sixth queues. -/
def burstState : NpmClientState :=
  waitForSlot (waitForSlot (waitForSlot (waitForSlot (waitForSlot
    (waitForSlot initClientState 0) 1) 2) 3) 4) 5

/-- C8 (witness): the invariant and the queue behavior evaluated on the
burst of six concurrent requests. -/
theorem c8_npmClient_concurrency_witness :
    burstState.activeRequests = burstState.running.length ∧
    burstState.running.length ≤ maxConcurrentRequests ∧
    (∀ id, maxConcurrentRequests ≤ burstState.activeRequests →
      waitForSlot burstState id =
        { burstState with requestQueue := burstState.requestQueue ++ [id] }) ∧
    (∀ id w rest, id ∈ burstState.running → burstState.requestQueue = w :: rest →
      (finishRequest burstState id).activeRequests = burstState.activeRequests ∧
      (finishRequest burstState id).requestQueue = rest ∧
      (finishRequest burstState id).running = burstState.running.erase id ++ [w]) :=
  c8_npmClient_concurrency burstState
    (NpmReachable.step (NpmReachable.step (NpmReachable.step (NpmReachable.step
      (NpmReachable.step (NpmReachable.step NpmReachable.init (NpmStep.arrive _ 0))
        (NpmStep.arrive _ 1)) (NpmStep.arrive _ 2)) (NpmStep.arrive _ 3))
      (NpmStep.arrive _ 4)) (NpmStep.arrive _ 5))

/-- C1 (witness): the amended characterization evaluated on the group
`[4.17.20, 4.17.21]`, whose members are both valid and caret-compatible
with the highest version. -/
theorem c1_canConsolidate_spec_witness :
    2 ≤ (["4.17.20", "4.17.21"] : List String).length ∧
      ∃ hi, hi ∈ (["4.17.20", "4.17.21"] : List String).filter (fun v => (parseSemver v).isSome) ∧
        (∀ w ∈ (["4.17.20", "4.17.21"] : List String).filter (fun v => (parseSemver v).isSome),
          vGe hi w) ∧
        (∀ w ∈ (["4.17.20", "4.17.21"] : List String).filter (fun v => (parseSemver v).isSome),
          satisfiesCaret hi w = true) :=
  (c1_canConsolidate_spec ["4.17.20", "4.17.21"]).mp (by decide)

end DepOptimizer
